import Mathlib

/-!
Verification of the kohaku client-side engine against its specification.

Shallow embedding of the Rust sources:
* `Merkle`   — the generic sparse fixed-depth Merkle tree of
  `crates/crypto/src/merkle_tree/merkle_tree.rs` and `merkle_proof.rs`,
  parameterised by the two-to-one hash `H`, the zero leaf `Z` and depth `D`
  exactly as `MerkleConfig` parameterises the Rust engine.  `U256` values are
  carried as `Nat`: the engine only stores and compares them.

The remaining sections embed the railgun-rs note/operation model, notebook,
txid tree set, base-37 codec, address codec, and the concrete cryptography
(Blake-512, BabyJubJub, SHA-2, Curve25519) used by the key-derivation claims.
-/

namespace Merkle

/-- `tree[level].get(i).unwrap_or(zeros[level])`: a child that is absent reads
as the zero value of its level. -/
def childOrZ (l : List Nat) (z : Nat) (i : Nat) : Nat := l.getD i z

/-- `Vec::resize(n, z)` as the Rust code uses it (guarded by `len < n`, so it
only ever grows). -/
def resizeTo (l : List Nat) (n : Nat) (z : Nat) : List Nat :=
  l ++ List.replicate (n - l.length) z

/-- Writing `xs` into `l` starting at `s`; total, and equal to the Rust
element-wise stores whenever `s + xs.length ≤ l.length`. -/
def writeSeq (l : List Nat) (s : Nat) (xs : List Nat) : List Nat :=
  l.take s ++ xs ++ l.drop (s + xs.length)

/-- The mutable state of `MerkleTree<C>`: the level arrays (level 0 holds the
leaves) and the set of dirty level-1 parent indices.  `number`, being inert,
is omitted. -/
structure State where
  tree : List (List Nat)
  dirty : Finset Nat
deriving DecidableEq

/-- `zeros[k]`: `Z[0] = Z`, `Z[k+1] = H(Z[k], Z[k])` (`zero_value_levels`). -/
def zlev (H : Nat → Nat → Nat) (Z : Nat) : Nat → Nat
  | 0 => Z
  | k + 1 => H (zlev H Z k) (zlev H Z k)

/-- The zero levels `0..=D` as the constructor precomputes them. -/
def zlist (H : Nat → Nat → Nat) (Z : Nat) (D : Nat) : List Nat :=
  (List.range (D + 1)).map (zlev H Z)

/-- `MerkleTree::new`: levels `0..D` empty, level `D` seeded with
`H(Z[D-1], Z[D-1])`. -/
def mkNew (H : Nat → Nat → Nat) (Z : Nat) (D : Nat) : State where
  tree := List.replicate D [] ++ [[H (zlev H Z (D - 1)) (zlev H Z (D - 1))]]
  dirty := ∅

/-- Level access, `self.tree[k]`. -/
def lvl (st : State) (k : Nat) : List Nat := st.tree.getD k []

/-- `MerkleTree::insert_leaves_raw`: write the leaves into level 0 starting at
`start` (extending with `Z[0]`), and mark each written index's parent dirty. -/
def insertLeavesRaw (Z : Nat) (st : State) (leaves : List Nat) (start : Nat) :
    State :=
  if leaves.isEmpty then st
  else
    let l0 := st.tree.headD []
    let l0b := writeSeq (resizeTo l0 (start + leaves.length) Z) start leaves
    { tree := st.tree.set 0 l0b
      dirty := st.dirty ∪ (Finset.range leaves.length).image
        (fun i => (start + i) / 2) }

/-- Map with the running index, used to model the per-parent recomputation. -/
def mapIdxFrom (f : Nat → Nat → Nat) : Nat → List Nat → List Nat
  | _, [] => []
  | n, x :: xs => f n x :: mapIdxFrom f (n + 1) xs

/-- One level of `MerkleTree::rebuild`: resize the parent level to
`child_width.div_ceil(2)` and recompute every dirty parent from its two
children (missing children read as the child level's zero). -/
def rebuildPass (H : Nat → Nat → Nat) (zc zp : Nat) (child parent : List Nat)
    (s : Finset Nat) : List Nat :=
  mapIdxFrom
    (fun p v =>
      if p ∈ s then
        H (childOrZ child zc (2 * p)) (childOrZ child zc (2 * p + 1))
      else v)
    0 (resizeTo parent ((child.length + 1) / 2) zp)

/-- The full rebuild loop over the levels: each step promotes the dirty set to
the next level by halving. -/
def rebuildLevels (H : Nat → Nat → Nat) :
    List Nat → List (List Nat) → Finset Nat → List (List Nat)
  | z0 :: z1 :: zs, l0 :: l1 :: rest, s =>
      l0 :: rebuildLevels H (z1 :: zs) (rebuildPass H z0 z1 l0 l1 s :: rest)
        (s.image (· / 2))
  | _, ls, _ => ls

/-- `MerkleTree::rebuild`: early return when nothing is dirty, otherwise run
the level passes and clear the dirty set. -/
def rebuild (H : Nat → Nat → Nat) (Z : Nat) (D : Nat) (st : State) : State :=
  if st.dirty = ∅ then st
  else
    { tree := rebuildLevels H (zlist H Z D) st.tree st.dirty
      dirty := ∅ }

/-- `self.tree[DEPTH][0]`, the root of a clean tree. -/
def rootOf (D : Nat) (st : State) : Nat := (lvl st D).getD 0 0

/-- `MerkleProof`: leaf element, sibling path, bit-packed indices and the
expected root. -/
structure MProof where
  element : Nat
  elements : List Nat
  indices : Nat
  root : Nat
deriving DecidableEq

inductive MerkleErr where
  | elementNotFound
  | invalidProof
deriving DecidableEq

/-- The fold inside `MerkleProof::verify`: per level hash with the sibling on
the side selected by the next bit of the packed indices. -/
def verifyFold (H : Nat → Nat → Nat) : Nat → Nat → List Nat → Nat
  | _, c, [] => c
  | idx, c, sib :: rest =>
      verifyFold H (idx / 2) (if idx % 2 = 0 then H c sib else H sib c) rest

/-- `MerkleProof::verify`, including the `saturating_to::<u32>` conversion of
the packed indices. -/
def mverify (H : Nat → Nat → Nat) (p : MProof) : Bool :=
  verifyFold H (min p.indices (2 ^ 32 - 1)) p.element p.elements = p.root

/-- The sibling path `generate_proof` records for a leaf found at `i0`. -/
def proofSiblings (H : Nat → Nat → Nat) (Z : Nat) (D : Nat) (st : State)
    (i0 : Nat) : List Nat :=
  (List.range D).map fun k =>
    let i := i0 / 2 ^ k
    childOrZ (lvl st k) (zlev H Z k) (if i % 2 = 0 then i + 1 else i - 1)

/-- `MerkleTree::generate_proof`: find the element's first index in level 0,
record the sibling path, and self-verify the proof before returning it. -/
def generateProof (H : Nat → Nat → Nat) (Z : Nat) (D : Nat) (st : State)
    (e : Nat) : Except MerkleErr MProof :=
  match (lvl st 0).findIdx? (· = e) with
  | none => .error .elementNotFound
  | some i0 =>
      let pf : MProof := ⟨e, proofSiblings H Z D st i0, i0, rootOf D st⟩
      if mverify H pf then .ok pf else .error .invalidProof

/-- The trees reachable through the public mutating API: a fresh tree,
followed by any sequence of raw batch insertions and rebuilds. -/
inductive Built (H : Nat → Nat → Nat) (Z : Nat) (D : Nat) : State → Prop
  | new : Built H Z D (mkNew H Z D)
  | insert {st} (leaves : List Nat) (start : Nat) :
      Built H Z D st → Built H Z D (insertLeavesRaw Z st leaves start)
  | rebuild {st} : Built H Z D st → Built H Z D (rebuild H Z D st)

end Merkle

namespace Merkle

/-! ### Access lemmas for the list primitives -/

theorem length_resizeTo (l : List Nat) (n z : Nat) :
    (resizeTo l n z).length = max l.length n := by
  simp [resizeTo]; omega

theorem getElem?_resizeTo_lt (l : List Nat) (n z : Nat) {i : Nat}
    (h : i < l.length) : (resizeTo l n z)[i]? = l[i]? :=
  List.getElem?_append_left h

theorem getD_resizeTo_lt (l : List Nat) (n z : Nat) {i : Nat} (d : Nat)
    (h : i < l.length) : (resizeTo l n z).getD i d = l.getD i d := by
  rw [List.getD_eq_getElem?_getD, List.getD_eq_getElem?_getD,
    getElem?_resizeTo_lt l n z h]

theorem getD_resizeTo_ge (l : List Nat) (n z : Nat) {i : Nat}
    (h : l.length ≤ i) : (resizeTo l n z).getD i z = z := by
  rw [List.getD_eq_getElem?_getD, resizeTo, List.getElem?_append_right h]
  rcases Nat.lt_or_ge (i - l.length) (n - l.length) with hlt | hge
  · rw [List.getElem?_replicate_of_lt hlt]; rfl
  · rw [List.getElem?_eq_none (by simpa using hge)]; rfl

theorem length_writeSeq (l xs : List Nat) (s : Nat)
    (h : s + xs.length ≤ l.length) : (writeSeq l s xs).length = l.length := by
  simp [writeSeq]; omega

theorem getD_writeSeq_lt (l xs : List Nat) (s : Nat) {i : Nat} (d : Nat)
    (hs : s ≤ l.length) (h : i < s) :
    (writeSeq l s xs).getD i d = l.getD i d := by
  have hlen : (l.take s).length = s := by simp; omega
  rw [writeSeq, List.getD_eq_getElem?_getD, List.append_assoc,
    List.getElem?_append_left (by omega), List.getElem?_take_of_lt h,
    ← List.getD_eq_getElem?_getD]

theorem getD_writeSeq_in (l xs : List Nat) (s : Nat) {i : Nat} (d : Nat)
    (hs : s ≤ l.length) (h1 : s ≤ i) (h2 : i < s + xs.length) :
    (writeSeq l s xs).getD i d = xs.getD (i - s) d := by
  have hlen : (l.take s).length = s := by simp; omega
  rw [writeSeq, List.getD_eq_getElem?_getD, List.append_assoc,
    List.getElem?_append_right (by omega), hlen,
    List.getElem?_append_left (by omega), ← List.getD_eq_getElem?_getD]

theorem getD_writeSeq_ge (l xs : List Nat) (s : Nat) {i : Nat} (d : Nat)
    (hs : s + xs.length ≤ l.length) (h : s + xs.length ≤ i) :
    (writeSeq l s xs).getD i d = l.getD i d := by
  have hlen : (l.take s).length = s := by simp; omega
  rw [writeSeq, List.getD_eq_getElem?_getD, List.append_assoc,
    List.getElem?_append_right (by omega), hlen,
    List.getElem?_append_right (by omega), List.getElem?_drop,
    List.getD_eq_getElem?_getD]
  congr 2
  omega

theorem length_mapIdxFrom (f : Nat → Nat → Nat) (n : Nat) (l : List Nat) :
    (mapIdxFrom f n l).length = l.length := by
  induction l generalizing n with
  | nil => rfl
  | cons a t ih => simp [mapIdxFrom, ih]

theorem getD_mapIdxFrom (f : Nat → Nat → Nat) (n : Nat) (l : List Nat)
    (i : Nat) (d d' : Nat) (h : i < l.length) :
    (mapIdxFrom f n l).getD i d = f (n + i) (l.getD i d') := by
  induction l generalizing n i with
  | nil => simp at h
  | cons a t ih =>
    cases i with
    | zero => simp [mapIdxFrom]
    | succ j =>
      have hj : j < t.length := by simpa using h
      have := ih (n + 1) j hj
      simp only [mapIdxFrom, List.getD_cons_succ]
      rw [this]
      congr 1
      omega

end Merkle

namespace Merkle

/-! ### Properties of a rebuild pass -/

theorem length_rebuildPass (H : Nat → Nat → Nat) (zc zp : Nat)
    (child parent : List Nat) (s : Finset Nat) :
    (rebuildPass H zc zp child parent s).length =
      max parent.length ((child.length + 1) / 2) := by
  rw [rebuildPass, length_mapIdxFrom, length_resizeTo]

theorem getD_rebuildPass_mem (H : Nat → Nat → Nat) (zc zp : Nat)
    (child parent : List Nat) (s : Finset Nat) {p : Nat} (d : Nat)
    (hp : p ∈ s) (hlt : p < max parent.length ((child.length + 1) / 2)) :
    (rebuildPass H zc zp child parent s).getD p d =
      H (childOrZ child zc (2 * p)) (childOrZ child zc (2 * p + 1)) := by
  rw [rebuildPass,
    getD_mapIdxFrom _ 0 _ p d zp (by rw [length_resizeTo]; exact hlt)]
  simp [hp]

theorem getD_rebuildPass_not_mem_lt (H : Nat → Nat → Nat) (zc zp : Nat)
    (child parent : List Nat) (s : Finset Nat) {p : Nat} (d : Nat)
    (hp : p ∉ s) (hlt : p < parent.length) :
    (rebuildPass H zc zp child parent s).getD p d = parent.getD p d := by
  rw [rebuildPass,
    getD_mapIdxFrom _ 0 _ p d d (by rw [length_resizeTo]; omega)]
  simp only [Nat.zero_add, hp, if_false]
  exact getD_resizeTo_lt parent _ zp d hlt

theorem getD_rebuildPass_not_mem_ge (H : Nat → Nat → Nat) (zc zp : Nat)
    (child parent : List Nat) (s : Finset Nat) {p : Nat}
    (hp : p ∉ s) (hge : parent.length ≤ p) :
    (rebuildPass H zc zp child parent s).getD p zp = zp := by
  rcases Nat.lt_or_ge p (max parent.length ((child.length + 1) / 2)) with h | h
  · rw [rebuildPass,
      getD_mapIdxFrom _ 0 _ p zp zp (by rw [length_resizeTo]; exact h)]
    simp only [Nat.zero_add, hp, if_false]
    exact getD_resizeTo_ge parent _ zp hge
  · exact List.getD_eq_default _ _ (by rw [length_rebuildPass]; exact h)

/-! ### The tree invariant -/

/-- Every populated parent whose position is not an ancestor of a dirty leaf
pair holds the hash of its two children (missing children read as zero). -/
def OkAt (H : Nat → Nat → Nat) (zsv : List Nat) (L : List (List Nat))
    (s : Finset Nat) : Prop :=
  ∀ k p, k + 1 < L.length → p < (L.getD (k + 1) []).length →
    (∀ d ∈ s, d / 2 ^ k ≠ p) →
    (L.getD (k + 1) []).getD p 0 =
      H (childOrZ (L.getD k []) (zsv.getD k 0) (2 * p))
        (childOrZ (L.getD k []) (zsv.getD k 0) (2 * p + 1))

/-- Every populated entry that is not the zero of its level has a populated
parent or a dirty ancestor (so a rebuild will hash it in). -/
def Covered (zsv : List Nat) (L : List (List Nat)) (s : Finset Nat) : Prop :=
  ∀ k j, k + 1 < L.length → j < (L.getD k []).length →
    (L.getD k []).getD j 0 ≠ zsv.getD k 0 →
    (j / 2 < (L.getD (k + 1) []).length ∨ ∃ d ∈ s, d / 2 ^ k = j / 2)

/-- Dirty parents sit below the populated leaf width. -/
def DBound (L : List (List Nat)) (s : Finset Nat) : Prop :=
  ∀ d ∈ s, 2 * d < (L.getD 0 []).length

/-- Each level is at least as wide as the ceiling-half of the level below. -/
def Widths (L : List (List Nat)) : Prop :=
  ∀ k, k + 1 < L.length →
    ((L.getD k []).length + 1) / 2 ≤ (L.getD (k + 1) []).length

/-- Adjacent zero values hash up: `zs[k+1] = H(zs[k], zs[k])`. -/
def ZAdj (H : Nat → Nat → Nat) (zsv : List Nat) : Prop :=
  ∀ k, k + 1 < zsv.length →
    zsv.getD (k + 1) 0 = H (zsv.getD k 0) (zsv.getD k 0)

end Merkle

namespace Merkle

theorem getD_default_eq (l : List Nat) {i : Nat} (d d' : Nat)
    (h : i < l.length) : l.getD i d = l.getD i d' := by
  rw [List.getD_eq_getElem _ _ h, List.getD_eq_getElem _ _ h]

theorem div2_div_pow (d k : Nat) : d / 2 / 2 ^ k = d / 2 ^ (k + 1) := by
  rw [Nat.div_div_eq_div_mul, pow_succ, Nat.mul_comm]

theorem getD_resizeTo_fill (l : List Nat) (n z : Nat) {i : Nat} (d : Nat)
    (h1 : l.length ≤ i) (h2 : i < max l.length n) :
    (resizeTo l n z).getD i d = z := by
  rw [List.getD_eq_getElem?_getD, resizeTo, List.getElem?_append_right h1,
    List.getElem?_replicate_of_lt (by omega)]
  rfl

theorem getD_rebuildPass_fill (H : Nat → Nat → Nat) (zc zp : Nat)
    (child parent : List Nat) (s : Finset Nat) {p : Nat} (d : Nat)
    (hp : p ∉ s) (h1 : parent.length ≤ p)
    (h2 : p < (rebuildPass H zc zp child parent s).length) :
    (rebuildPass H zc zp child parent s).getD p d = zp := by
  rw [length_rebuildPass] at h2
  rw [rebuildPass, getD_mapIdxFrom _ 0 _ p d d (by rw [length_resizeTo]; omega)]
  simp only [Nat.zero_add, hp, if_false]
  exact getD_resizeTo_fill parent _ zp d h1 h2

theorem okAt_short (H : Nat → Nat → Nat) (zsv : List Nat)
    (L : List (List Nat)) (s : Finset Nat) (h : L.length ≤ 1) :
    OkAt H zsv L s := by
  intro k p hk
  omega

theorem widths_short (L : List (List Nat)) (h : L.length ≤ 1) : Widths L := by
  intro k hk
  omega

end Merkle

namespace Merkle

theorem rebuildLevels_spec (H : Nat → Nat → Nat) :
    ∀ (zsv : List Nat) (L : List (List Nat)) (s : Finset Nat),
      L.length ≤ zsv.length → ZAdj H zsv → OkAt H zsv L s →
      Covered zsv L s → DBound L s →
      (rebuildLevels H zsv L s).length = L.length ∧
      (rebuildLevels H zsv L s).getD 0 [] = L.getD 0 [] ∧
      (∀ k, (L.getD k []).length ≤
        ((rebuildLevels H zsv L s).getD k []).length) ∧
      OkAt H zsv (rebuildLevels H zsv L s) ∅ ∧
      Widths (rebuildLevels H zsv L s) := by
  intro zsv
  induction zsv with
  | nil =>
    intro L s hlen _ _ _ _
    have h0 : L.length ≤ 1 := le_trans hlen (by simp)
    have heq : rebuildLevels H [] L s = L := by
      cases L with
      | nil => rfl
      | cons a t => rfl
    rw [heq]
    exact ⟨rfl, rfl, fun k => le_refl _, okAt_short H [] L ∅ h0, widths_short L h0⟩
  | cons z0 zt ih =>
    cases zt with
    | nil =>
      intro L s hlen _ _ _ _
      have h0 : L.length ≤ 1 := by simpa using hlen
      have heq : rebuildLevels H [z0] L s = L := by
        cases L with
        | nil => rfl
        | cons a t => rfl
      rw [heq]
      exact ⟨rfl, rfl, fun k => le_refl _, okAt_short H [z0] L ∅ h0,
        widths_short L h0⟩
    | cons z1 zs =>
      intro L s hlen hza hok hcov hdb
      cases L with
      | nil =>
        exact ⟨rfl, rfl, fun k => le_refl _, okAt_short H _ [] ∅ (by simp),
          widths_short [] (by simp)⟩
      | cons l0 Lt =>
        cases Lt with
        | nil =>
          have heq : rebuildLevels H (z0 :: z1 :: zs) [l0] s = [l0] := rfl
          rw [heq]
          exact ⟨rfl, rfl, fun k => le_refl _,
            okAt_short H _ [l0] ∅ (by simp), widths_short [l0] (by simp)⟩
        | cons l1 rest =>
          have heq : rebuildLevels H (z0 :: z1 :: zs) (l0 :: l1 :: rest) s =
              l0 :: rebuildLevels H (z1 :: zs)
                (rebuildPass H z0 z1 l0 l1 s :: rest) (s.image (· / 2)) := rfl
          have hlenpass : (rebuildPass H z0 z1 l0 l1 s).length =
              max l1.length ((l0.length + 1) / 2) := length_rebuildPass ..
          -- hypotheses of the inductive step
          have hlen1 : (rebuildPass H z0 z1 l0 l1 s :: rest).length ≤
              (z1 :: zs).length := by
            simp at hlen ⊢; omega
          have hza1 : ZAdj H (z1 :: zs) := by
            intro k hk
            have := hza (k + 1) (by simp at hk ⊢; omega)
            simpa using this
          have hnotmem : ∀ p : Nat, (∀ d ∈ s.image (· / 2), d ≠ p) → p ∉ s →
              True := fun _ _ _ => trivial
          have hok1 : OkAt H (z1 :: zs) (rebuildPass H z0 z1 l0 l1 s :: rest)
              (s.image (· / 2)) := by
            intro k p hk hp hcond
            have hcond2 : ∀ d ∈ s, d / 2 ^ (k + 1) ≠ p := by
              intro d hd
              have h1 := hcond (d / 2) (Finset.mem_image_of_mem _ hd)
              rwa [div2_div_pow] at h1
            have hmain := hok (k + 1) p (by simp at hk ⊢; omega)
              (by simpa using hp) hcond2
            cases k with
            | zero =>
              simp only [List.getD_cons_succ, List.getD_cons_zero] at hmain ⊢
              have hchild : ∀ c, c / 2 = p →
                  childOrZ (rebuildPass H z0 z1 l0 l1 s) z1 c =
                    childOrZ l1 z1 c := by
                intro c hc
                have hcs : c ∉ s := by
                  intro hmem
                  have h1 := hcond (c / 2) (Finset.mem_image_of_mem _ hmem)
                  simp [hc] at h1
                rcases Nat.lt_or_ge c l1.length with hlt | hge
                · exact getD_rebuildPass_not_mem_lt H z0 z1 l0 l1 s z1 hcs hlt
                · show (rebuildPass H z0 z1 l0 l1 s).getD c z1 = l1.getD c z1
                  rw [List.getD_eq_default _ _ hge]
                  rcases Nat.lt_or_ge c
                      (rebuildPass H z0 z1 l0 l1 s).length with h2 | h2
                  · exact getD_rebuildPass_fill H z0 z1 l0 l1 s z1 hcs hge h2
                  · exact List.getD_eq_default _ _ h2
              rw [hchild (2 * p) (by omega), hchild (2 * p + 1) (by omega)]
              exact hmain
            | succ k' =>
              simp only [List.getD_cons_succ] at hmain ⊢
              exact hmain
          have hcov1 : Covered (z1 :: zs)
              (rebuildPass H z0 z1 l0 l1 s :: rest) (s.image (· / 2)) := by
            intro k j hk hj hne
            cases k with
            | zero =>
              simp only [List.getD_cons_zero, List.getD_cons_succ] at hj hne ⊢
              by_cases hjs : j ∈ s
              · exact Or.inr ⟨j / 2, Finset.mem_image_of_mem _ hjs, by simp⟩
              · rcases Nat.lt_or_ge j l1.length with hlt | hge
                · have hval := getD_rebuildPass_not_mem_lt H z0 z1 l0 l1 s
                    (0 : Nat) hjs hlt
                  rw [hval] at hne
                  have h3 := hcov 1 j (by simp at hk ⊢; omega)
                    (by simpa using hlt) (by simpa using hne)
                  rcases h3 with h3 | ⟨d, hd, hdq⟩
                  · exact Or.inl (by simpa using h3)
                  · refine Or.inr ⟨d / 2, Finset.mem_image_of_mem _ hd, ?_⟩
                    simp only [pow_zero, Nat.div_one]
                    rw [pow_one] at hdq
                    exact hdq
                · exfalso
                  exact hne (getD_rebuildPass_fill H z0 z1 l0 l1 s 0 hjs hge hj)
            | succ k' =>
              simp only [List.getD_cons_succ] at hj hne ⊢
              have h3 := hcov (k' + 2) j (by simp at hk ⊢; omega)
                (by simpa using hj) (by simpa using hne)
              rcases h3 with h3 | ⟨d, hd, hdq⟩
              · exact Or.inl (by simpa using h3)
              · refine Or.inr ⟨d / 2, Finset.mem_image_of_mem _ hd, ?_⟩
                rw [div2_div_pow]
                exact hdq
          have hdb1 : DBound (rebuildPass H z0 z1 l0 l1 s :: rest)
              (s.image (· / 2)) := by
            intro d' hd'
            rcases Finset.mem_image.mp hd' with ⟨d, hd, rfl⟩
            have h2 := hdb d hd
            simp only [List.getD_cons_zero] at h2 ⊢
            rw [hlenpass]
            omega
          obtain ⟨ihlen, ihhead, ihmono, ihok, ihwid⟩ :=
            ih (rebuildPass H z0 z1 l0 l1 s :: rest) (s.image (· / 2))
              hlen1 hza1 hok1 hcov1 hdb1
          rw [heq]
          refine ⟨by simp [ihlen], by simp, ?_, ?_, ?_⟩
          · intro k
            cases k with
            | zero => simp
            | succ k' =>
              simp only [List.getD_cons_succ]
              cases k' with
              | zero =>
                have h1 : l1.length ≤ (rebuildPass H z0 z1 l0 l1 s).length := by
                  rw [hlenpass]; omega
                have h2 := ihmono 0
                simp only [List.getD_cons_zero] at h2 ⊢
                omega
              | succ k'' =>
                have h2 := ihmono (k'' + 1)
                simpa using h2
          · -- OkAt with the empty dirty set after the rebuild
            intro k p hk hp _
            cases k with
            | zero =>
              simp only [List.getD_cons_succ, List.getD_cons_zero] at hp ⊢
              rw [ihhead] at hp ⊢
              simp only [List.getD_cons_zero] at hp ⊢
              by_cases hps : p ∈ s
              · exact getD_rebuildPass_mem H z0 z1 l0 l1 s 0 hps
                  (by rw [← hlenpass]; exact hp)
              · rcases Nat.lt_or_ge p l1.length with hlt | hge
                · rw [getD_rebuildPass_not_mem_lt H z0 z1 l0 l1 s 0 hps hlt]
                  exact hok 0 p (by simp) (by simpa using hlt)
                    (by intro d hd
                        simp only [pow_zero, Nat.div_one]
                        intro hdp
                        exact hps (hdp ▸ hd))
                · rw [getD_rebuildPass_fill H z0 z1 l0 l1 s 0 hps hge hp]
                  have hz1 : z1 = H z0 z0 := by
                    have := hza 0 (by simp)
                    simpa using this
                  have hchild0 : ∀ c, c / 2 = p → childOrZ l0 z0 c = z0 := by
                    intro c hc
                    rcases Nat.lt_or_ge c l0.length with hclt | hcge
                    · by_contra hne0
                      have hne1 : l0.getD c 0 ≠ z0 := by
                        rw [getD_default_eq l0 0 z0 hclt]
                        exact fun h => hne0 h
                      have h3 := hcov 0 c (by simp) (by simpa using hclt)
                        (by simpa using hne1)
                      rcases h3 with h3 | ⟨d, hd, hdq⟩
                      · simp only [List.getD_cons_succ, List.getD_cons_zero]
                          at h3
                        omega
                      · simp only [pow_zero, Nat.div_one] at hdq
                        rw [hc] at hdq
                        exact hps (hdq ▸ hd)
                    · exact List.getD_eq_default _ _ hcge
                  rw [hchild0 (2 * p) (by omega), hchild0 (2 * p + 1) (by omega)]
                  exact hz1
            | succ k' =>
              simp only [List.getD_cons_succ] at hp ⊢
              have := ihok k' p (by simp at hk ihlen ⊢; omega) hp
                (by intro d hd; exact absurd hd (Finset.not_mem_empty d))
              simpa using this
          · -- Widths
            intro k hk
            cases k with
            | zero =>
              simp only [List.getD_cons_succ, List.getD_cons_zero]
              rw [ihhead]
              simp only [List.getD_cons_zero]
              rw [hlenpass]
              omega
            | succ k' =>
              simp only [List.getD_cons_succ]
              exact ihwid k' (by simp at hk ihlen ⊢; omega)

end Merkle

namespace Merkle

/-! ### The invariant carried by every built tree -/

theorem zlist_length (H : Nat → Nat → Nat) (Z D : Nat) :
    (zlist H Z D).length = D + 1 := by simp [zlist]

theorem zlist_getD (H : Nat → Nat → Nat) (Z D : Nat) {k : Nat} (h : k ≤ D) :
    (zlist H Z D).getD k 0 = zlev H Z k := by
  rw [zlist, List.getD_eq_getElem?_getD, List.getElem?_map,
    List.getElem?_range (by omega)]
  rfl

theorem zadj_zlist (H : Nat → Nat → Nat) (Z D : Nat) : ZAdj H (zlist H Z D) := by
  intro k hk
  rw [zlist_length] at hk
  rw [zlist_getD H Z D (by omega), zlist_getD H Z D (by omega)]
  rfl

/-- The state invariant every tree reachable through the API satisfies. -/
structure Inv (H : Nat → Nat → Nat) (Z : Nat) (D : Nat) (st : State) : Prop where
  tlen : st.tree.length = D + 1
  ok : OkAt H (zlist H Z D) st.tree st.dirty
  cov : Covered (zlist H Z D) st.tree st.dirty
  db : DBound st.tree st.dirty
  top : 1 ≤ (st.tree.getD D []).length
  wid : st.dirty = ∅ → Widths st.tree

theorem getD_mkNew_lt (H : Nat → Nat → Nat) (Z D : Nat) {k : Nat} (h : k < D) :
    (mkNew H Z D).tree.getD k [] = [] := by
  rw [mkNew, List.getD_eq_getElem?_getD,
    List.getElem?_append_left (by simpa using h),
    List.getElem?_replicate_of_lt h]
  rfl

theorem getD_mkNew_D (H : Nat → Nat → Nat) (Z D : Nat) :
    (mkNew H Z D).tree.getD D [] = [H (zlev H Z (D - 1)) (zlev H Z (D - 1))] := by
  rw [mkNew, List.getD_eq_getElem?_getD,
    List.getElem?_append_right (by simp)]
  simp

theorem inv_new (H : Nat → Nat → Nat) (Z D : Nat) : Inv H Z D (mkNew H Z D) := by
  have htlen : (mkNew H Z D).tree.length = D + 1 := by simp [mkNew]
  refine ⟨htlen, ?_, ?_, ?_, ?_, ?_⟩
  · intro k p hk hp _
    rw [htlen] at hk
    rcases Nat.lt_or_ge (k + 1) D with hlt | hge
    · rw [getD_mkNew_lt H Z D hlt] at hp
      simp at hp
    · have hkD : k + 1 = D := by omega
      subst hkD
      rw [getD_mkNew_D H Z (k + 1)] at hp ⊢
      have hp0 : p = 0 := by simpa using hp
      subst hp0
      rw [getD_mkNew_lt H Z (k + 1) (by omega)]
      show [H (zlev H Z k) (zlev H Z k)].getD 0 0 = _
      rw [zlist_getD H Z (k + 1) (by omega)]
      simp [childOrZ]
  · intro k j hk hj _
    rw [htlen] at hk
    rw [getD_mkNew_lt H Z D (by omega)] at hj
    simp at hj
  · intro d hd
    exact absurd hd (Finset.not_mem_empty d)
  · rw [getD_mkNew_D H Z D]
    simp
  · intro _ k hk
    rw [htlen] at hk
    rw [getD_mkNew_lt H Z D (by omega)]
    rcases Nat.lt_or_ge (k + 1) D with hlt | hge
    · rw [getD_mkNew_lt H Z D hlt]
      simp
    · have hkD : k + 1 = D := by omega
      subst hkD
      rw [getD_mkNew_D H Z (k + 1)]
      simp

end Merkle

namespace Merkle

theorem headD_eq_getD (l : List (List Nat)) : l.headD [] = l.getD 0 [] := by
  cases l <;> rfl

theorem inv_insert (H : Nat → Nat → Nat) (Z D : Nat) (st : State)
    (leaves : List Nat) (start : Nat) (h : Inv H Z D st) :
    Inv H Z D (insertLeavesRaw Z st leaves start) := by
  by_cases hle : leaves.isEmpty
  · simpa [insertLeavesRaw, hle] using h
  · have hn : 1 ≤ leaves.length := by
      cases leaves with
      | nil => simp at hle
      | cons a t => simp
    have htree : (insertLeavesRaw Z st leaves start).tree =
        st.tree.set 0 (writeSeq (resizeTo (st.tree.headD [])
          (start + leaves.length) Z) start leaves) := by
      simp [insertLeavesRaw, hle]
    have hdirty : (insertLeavesRaw Z st leaves start).dirty =
        st.dirty ∪ (Finset.range leaves.length).image
          (fun i => (start + i) / 2) := by
      simp [insertLeavesRaw, hle]
    have hl0 : st.tree.headD [] = st.tree.getD 0 [] := headD_eq_getD st.tree
    set l0 := st.tree.getD 0 [] with hl0def
    rw [hl0] at htree
    set n := leaves.length with hndef
    set resized := resizeTo l0 (start + n) Z with hresdef
    set l0b := writeSeq resized start leaves with hl0bdef
    set marks := (Finset.range n).image (fun i => (start + i) / 2) with hmkdef
    have hreslen : resized.length = max l0.length (start + n) := by
      rw [hresdef, length_resizeTo]
    have hinres : start + n ≤ resized.length := by omega
    have hl0blen : l0b.length = resized.length := by
      rw [hl0bdef, length_writeSeq _ _ _ (by omega)]
    have hmono : l0.length ≤ l0b.length := by omega
    have hcap : start + n ≤ l0b.length := by omega
    have htlen0 : 0 < st.tree.length := by rw [h.tlen]; omega
    have hget0 : (st.tree.set 0 l0b).getD 0 [] = l0b := by
      rw [List.getD_eq_getElem?_getD, List.getElem?_set_self htlen0]
      rfl
    have hgetk : ∀ k, k ≠ 0 → (st.tree.set 0 l0b).getD k [] =
        st.tree.getD k [] := by
      intro k hk
      rw [List.getD_eq_getElem?_getD, List.getElem?_set_ne (by omega),
        ← List.getD_eq_getElem?_getD]
    have hkeepZ : ∀ c, (c < start ∨ start + n ≤ c) →
        l0b.getD c Z = l0.getD c Z := by
      intro c hc
      have hstep : l0b.getD c Z = resized.getD c Z := by
        rcases hc with hc | hc
        · exact getD_writeSeq_lt resized leaves start Z (by omega) hc
        · exact getD_writeSeq_ge resized leaves start Z (by omega) hc
      rw [hstep]
      rcases Nat.lt_or_ge c l0.length with hlt | hge
      · exact getD_resizeTo_lt l0 _ Z Z hlt
      · rw [getD_resizeTo_ge l0 _ Z hge, List.getD_eq_default _ _ hge]
    have hval0 : ∀ j, j < l0.length → (j < start ∨ start + n ≤ j) →
        l0b.getD j 0 = l0.getD j 0 := by
      intro j hj hc
      have hstep : l0b.getD j 0 = resized.getD j 0 := by
        rcases hc with hc | hc
        · exact getD_writeSeq_lt resized leaves start 0 (by omega) hc
        · exact getD_writeSeq_ge resized leaves start 0 (by omega) hc
      rw [hstep]
      exact getD_resizeTo_lt l0 _ Z 0 hj
    have hfillZ : ∀ j, l0.length ≤ j → (j < start ∨ start + n ≤ j) →
        j < l0b.length → l0b.getD j 0 = Z := by
      intro j hj hc hjlt
      have hstep : l0b.getD j 0 = resized.getD j 0 := by
        rcases hc with hc | hc
        · exact getD_writeSeq_lt resized leaves start 0 (by omega) hc
        · exact getD_writeSeq_ge resized leaves start 0 (by omega) hc
      rw [hstep]
      exact getD_resizeTo_fill l0 _ Z 0 hj (by omega)
    have hwrite_mark : ∀ c, start ≤ c → c < start + n → c / 2 ∈ marks := by
      intro c h1 h2
      rw [hmkdef]
      refine Finset.mem_image.mpr ⟨c - start, Finset.mem_range.mpr (by omega), ?_⟩
      congr 1
      omega
    have hz0 : (zlist H Z D).getD 0 0 = Z := by
      rw [zlist_getD H Z D (by omega)]
      rfl
    refine ⟨?_, ?_, ?_, ?_, ?_, ?_⟩
    · rw [htree, List.length_set]
      exact h.tlen
    · intro k p hk hp hcond
      rw [htree, List.length_set] at hk
      rw [htree, hgetk (k + 1) (by omega)] at hp ⊢
      rw [hdirty] at hcond
      have hcold : ∀ d ∈ st.dirty, d / 2 ^ k ≠ p := fun d hd =>
        hcond d (Finset.mem_union_left _ hd)
      have hmain := h.ok k p hk hp hcold
      cases k with
      | zero =>
        rw [hget0]
        rw [hmain]
        have hchild : ∀ c, c / 2 = p →
            childOrZ l0b ((zlist H Z D).getD 0 0) c =
              childOrZ l0 ((zlist H Z D).getD 0 0) c := by
          intro c hc
          have hout : c < start ∨ start + n ≤ c := by
            by_contra hcon
            push_neg at hcon
            have hmem := hwrite_mark c hcon.1 hcon.2
            have := hcond (c / 2) (Finset.mem_union_right _ hmem)
            simp only [pow_zero, Nat.div_one] at this
            exact this hc
          show l0b.getD c _ = l0.getD c _
          rw [hz0]
          exact hkeepZ c hout
        rw [hchild (2 * p) (by omega), hchild (2 * p + 1) (by omega)]
      | succ k' =>
        rw [hgetk (k' + 1) (by omega)]
        exact hmain
    · intro k j hk hj hne
      rw [htree, List.length_set] at hk
      rw [hdirty]
      cases k with
      | zero =>
        rw [htree, hget0] at hj hne
        rw [htree, hgetk 1 (by omega)]
        by_cases hw : start ≤ j ∧ j < start + n
        · refine Or.inr ⟨j / 2, Finset.mem_union_right _
            (hwrite_mark j hw.1 hw.2), by simp⟩
        · have hout : j < start ∨ start + n ≤ j := by
            rcases Nat.lt_or_ge j start with h1 | h1
            · exact Or.inl h1
            · exact Or.inr (by omega)
          rcases Nat.lt_or_ge j l0.length with hlt | hge
          · rw [hval0 j hlt hout] at hne
            have h3 := h.cov 0 j hk hlt hne
            rcases h3 with h3 | ⟨d, hd, hdq⟩
            · exact Or.inl h3
            · exact Or.inr ⟨d, Finset.mem_union_left _ hd, hdq⟩
          · exfalso
            apply hne
            rw [hz0]
            exact hfillZ j hge hout hj
      | succ k' =>
        rw [htree, hgetk (k' + 1) (by omega)] at hj hne
        rw [htree, hgetk (k' + 2) (by omega)]
        have h3 := h.cov (k' + 1) j hk hj hne
        rcases h3 with h3 | ⟨d, hd, hdq⟩
        · exact Or.inl h3
        · exact Or.inr ⟨d, Finset.mem_union_left _ hd, hdq⟩
    · intro d hd
      rw [hdirty] at hd
      rw [htree, hget0]
      rcases Finset.mem_union.mp hd with hd | hd
      · have h2 := h.db d hd
        rw [← hl0def] at h2
        omega
      · rcases Finset.mem_image.mp hd with ⟨i, hi, rfl⟩
        have hi' : i < n := Finset.mem_range.mp hi
        omega
    · rw [htree]
      by_cases hD : D = 0
      · subst hD
        rw [hget0]
        have := h.top
        omega
      · rw [hgetk D hD]
        exact h.top
    · intro hempty
      exfalso
      rw [hdirty] at hempty
      have hmem : start / 2 ∈ marks := by
        rw [hmkdef]
        exact Finset.mem_image.mpr ⟨0, Finset.mem_range.mpr (by omega), by simp⟩
      have : start / 2 ∈ st.dirty ∪ marks := Finset.mem_union_right _ hmem
      rw [hempty] at this
      exact absurd this (Finset.not_mem_empty _)

end Merkle

namespace Merkle

theorem inv_rebuild (H : Nat → Nat → Nat) (Z D : Nat) (st : State)
    (h : Inv H Z D st) : Inv H Z D (rebuild H Z D st) := by
  by_cases hd : st.dirty = ∅
  · simpa [rebuild, hd] using h
  · have htree : (rebuild H Z D st).tree =
        rebuildLevels H (zlist H Z D) st.tree st.dirty := by
      simp [rebuild, hd]
    have hdirty : (rebuild H Z D st).dirty = ∅ := by simp [rebuild, hd]
    obtain ⟨ihlen, _, ihmono, ihok, ihwid⟩ :=
      rebuildLevels_spec H (zlist H Z D) st.tree st.dirty
        (by rw [h.tlen, zlist_length]) (zadj_zlist H Z D) h.ok h.cov h.db
    refine ⟨?_, ?_, ?_, ?_, ?_, ?_⟩
    · rw [htree, ihlen, h.tlen]
    · rw [htree, hdirty]
      exact ihok
    · rw [htree, hdirty]
      intro k j hk hj hne
      left
      have hw := ihwid k (by omega)
      omega
    · rw [hdirty]
      intro d hdm
      exact absurd hdm (Finset.not_mem_empty d)
    · rw [htree]
      exact le_trans h.top (ihmono D)
    · intro _
      rw [htree]
      exact ihwid

theorem built_inv (H : Nat → Nat → Nat) (Z D : Nat) (st : State)
    (h : Built H Z D st) : Inv H Z D st := by
  induction h with
  | new => exact inv_new H Z D
  | insert leaves start _ ih => exact inv_insert H Z D _ leaves start ih
  | rebuild _ ih => exact inv_rebuild H Z D _ ih

end Merkle

/-! ## Claim C1 -/

/-- A concrete depth-4 xor tree (the repository's `TestMerkleConfig`:
`DEPTH = 4`, `hash = left ^ right`, `zero = 0`) with three leaves inserted
and rebuilt. -/
def testTree3 : Merkle.State :=
  Merkle.rebuild Nat.xor 0 4
    (Merkle.insertLeavesRaw 0 (Merkle.mkNew Nat.xor 0 4) [1, 2, 3] 0)

/-- C1: for every Merkle tree built by any sequence of `insert_leaves_raw`
calls and `rebuild`s whose dirty-parent set is empty, and for every level
`k < D` and populated parent index `p` at level `k + 1`,
`tree[k + 1][p] = H(l, r)` where `l`/`r` are `tree[k][2p]`/`tree[k][2p + 1]`
when populated and the zero value of level `k` otherwise. -/
theorem merkle_rebuild_parent_hash (H : Nat → Nat → Nat) (Z D : Nat)
    (st : Merkle.State) (hb : Merkle.Built H Z D st) (hclean : st.dirty = ∅)
    (k p : Nat) (hk : k < D) (hp : p < (Merkle.lvl st (k + 1)).length) :
    (Merkle.lvl st (k + 1)).getD p 0 =
      H (Merkle.childOrZ (Merkle.lvl st k) (Merkle.zlev H Z k) (2 * p))
        (Merkle.childOrZ (Merkle.lvl st k) (Merkle.zlev H Z k) (2 * p + 1)) := by
  have hinv := Merkle.built_inv H Z D st hb
  have h := hinv.ok k p (by rw [hinv.tlen]; omega) hp
    (by intro d hd; rw [hclean] at hd; exact absurd hd (Finset.not_mem_empty d))
  rwa [Merkle.zlist_getD H Z D (by omega)] at h

/-- C1 witness: the invariant evaluated at the first parent of the concrete
three-leaf xor tree. -/
theorem merkle_rebuild_parent_hash_witness :
    (Merkle.lvl testTree3 1).getD 0 0 =
      Nat.xor
        (Merkle.childOrZ (Merkle.lvl testTree3 0) (Merkle.zlev Nat.xor 0 0)
          (2 * 0))
        (Merkle.childOrZ (Merkle.lvl testTree3 0) (Merkle.zlev Nat.xor 0 0)
          (2 * 0 + 1)) :=
  merkle_rebuild_parent_hash Nat.xor 0 4 testTree3
    (Merkle.Built.rebuild (Merkle.Built.insert [1, 2, 3] 0 Merkle.Built.new))
    (by decide) 0 0 (by decide) (by decide)

namespace Merkle

/-- Climbing the verify fold from level `a` along `b` recorded siblings lands
on the ancestor entry at level `a + b`. -/
theorem verifyFold_path (H : Nat → Nat → Nat) (Z D : Nat)
    (L : List (List Nat)) (hlen : L.length = D + 1)
    (hok : OkAt H (zlist H Z D) L ∅) (hwid : Widths L) :
    ∀ b a, a + b ≤ D → ∀ i, i < (L.getD a []).length →
      verifyFold H i ((L.getD a []).getD i 0)
        ((List.range b).map fun k =>
          childOrZ (L.getD (a + k) []) (zlev H Z (a + k))
            (if i / 2 ^ k % 2 = 0 then i / 2 ^ k + 1 else i / 2 ^ k - 1)) =
      (L.getD (a + b) []).getD (i / 2 ^ b) 0 := by
  intro b
  induction b with
  | zero =>
    intro a _ i _
    simp [verifyFold]
  | succ b ih =>
    intro a hab i hi
    have hwk : ((L.getD a []).length + 1) / 2 ≤ (L.getD (a + 1) []).length :=
      hwid a (by omega)
    have hi2 : i / 2 < (L.getD (a + 1) []).length := by omega
    have hstep : (L.getD (a + 1) []).getD (i / 2) 0 =
        H (childOrZ (L.getD a []) (zlev H Z a) (2 * (i / 2)))
          (childOrZ (L.getD a []) (zlev H Z a) (2 * (i / 2) + 1)) := by
      have h := hok a (i / 2) (by omega) hi2
        (by intro d hd; exact absurd hd (Finset.not_mem_empty d))
      rwa [zlist_getD H Z D (by omega)] at h
    rw [List.range_succ_eq_map, List.map_cons, List.map_map]
    simp only [Nat.pow_zero, Nat.div_one, Nat.add_zero]
    simp only [verifyFold]
    have hcur : (if i % 2 = 0 then
        H ((L.getD a []).getD i 0)
          (childOrZ (L.getD a []) (zlev H Z a)
            (if i % 2 = 0 then i + 1 else i - 1))
      else
        H (childOrZ (L.getD a []) (zlev H Z a)
            (if i % 2 = 0 then i + 1 else i - 1))
          ((L.getD a []).getD i 0)) = (L.getD (a + 1) []).getD (i / 2) 0 := by
      rcases Nat.even_or_odd i with he | ho
      · have h2 : i % 2 = 0 := Nat.even_iff.mp he
        have h21 : 2 * (i / 2) = i := by omega
        rw [hstep, h21, if_pos h2, if_pos h2]
        have hcz : childOrZ (L.getD a []) (zlev H Z a) i =
            (L.getD a []).getD i 0 := getD_default_eq _ _ _ hi
        rw [hcz]
      · have h2 : i % 2 = 1 := Nat.odd_iff.mp ho
        have h21 : 2 * (i / 2) = i - 1 := by omega
        rw [hstep, h21, show i - 1 + 1 = i from by omega,
          if_neg (by omega), if_neg (by omega)]
        have hcz : childOrZ (L.getD a []) (zlev H Z a) i =
            (L.getD a []).getD i 0 := getD_default_eq _ _ _ hi
        rw [hcz]
    rw [hcur]
    have htail : ((List.range b).map
        ((fun k => childOrZ (L.getD (a + k) []) (zlev H Z (a + k))
          (if i / 2 ^ k % 2 = 0 then i / 2 ^ k + 1 else i / 2 ^ k - 1)) ∘
          Nat.succ)) =
        (List.range b).map fun k =>
          childOrZ (L.getD (a + 1 + k) []) (zlev H Z (a + 1 + k))
            (if i / 2 / 2 ^ k % 2 = 0 then i / 2 / 2 ^ k + 1
             else i / 2 / 2 ^ k - 1) := by
      refine List.map_congr_left ?_
      intro k _
      simp only [Function.comp_apply, Nat.succ_eq_add_one]
      rw [div2_div_pow, show a + (k + 1) = a + 1 + k by omega]
    rw [htail, ih (a + 1) (by omega) (i / 2) hi2,
      show a + 1 + b = a + (b + 1) by omega, div2_div_pow]

/-- The recorded sibling path, rephrased to match the path climb from
level `0`. -/
theorem proofSiblings_eq (H : Nat → Nat → Nat) (Z D : Nat) (st : State)
    (i0 : Nat) :
    proofSiblings H Z D st i0 =
      (List.range D).map fun k =>
        childOrZ (st.tree.getD (0 + k) []) (zlev H Z (0 + k))
          (if i0 / 2 ^ k % 2 = 0 then i0 / 2 ^ k + 1 else i0 / 2 ^ k - 1) := by
  simp only [proofSiblings, lvl]
  exact List.map_congr_left fun k _ => by rw [Nat.zero_add]

end Merkle

/-! ## Claim C2 -/

/-- The depth-4 xor tree over capacity: seventeen leaves, one more than
`2 ^ 4`, inserted and rebuilt. -/
def overfullTree : Merkle.State :=
  Merkle.rebuild Nat.xor 0 4
    (Merkle.insertLeavesRaw 0 (Merkle.mkNew Nat.xor 0 4)
      [1, 2, 3, 4, 5, 6, 7, 8, 9, 10, 11, 12, 13, 14, 15, 16, 17] 0)

/-- C2 counterexample: on a clean tree holding more leaves than `2 ^ DEPTH`,
`generate_proof` fails on an inserted element (its self-check rejects the
proof), so the claim as stated does not hold for every clean tree. -/
theorem generate_proof_over_capacity :
    (overfullTree.dirty = ∅ ∧ 17 ∈ Merkle.lvl overfullTree 0) ∧
      Merkle.generateProof Nat.xor 0 4 overfullTree 17 =
        Except.error Merkle.MerkleErr.invalidProof :=
  ⟨⟨by decide, by decide⟩, by rfl⟩

/-- C2 (amended with a capacity bound): on every built tree whose dirty set
is empty, whose leaf count is within `2 ^ D`, and with `D ≤ 32` (so the
bit-packed indices survive `saturating_to::<u32>`), `generate_proof`
returns `Ok` on every inserted element and the returned proof verifies. -/
theorem generate_proof_verifies (H : Nat → Nat → Nat) (Z D : Nat)
    (st : Merkle.State) (e : Nat) (hb : Merkle.Built H Z D st)
    (hclean : st.dirty = ∅) (hD : D ≤ 32)
    (hcap : (Merkle.lvl st 0).length ≤ 2 ^ D) (he : e ∈ Merkle.lvl st 0) :
    ∃ pf, Merkle.generateProof H Z D st e = Except.ok pf ∧
      Merkle.mverify H pf = true := by
  have hinv := Merkle.built_inv H Z D st hb
  have hok : Merkle.OkAt H (Merkle.zlist H Z D) st.tree ∅ := by
    rw [← hclean]; exact hinv.ok
  have hwid : Merkle.Widths st.tree := hinv.wid hclean
  have hne : (Merkle.lvl st 0).findIdx? (· = e) ≠ none := by
    intro hnone
    have hall := List.findIdx?_eq_none_iff.mp hnone e he
    simp at hall
  obtain ⟨i0, hf⟩ := Option.ne_none_iff_exists'.mp hne
  obtain ⟨hi0lt, hpe, -⟩ := List.findIdx?_eq_some_iff_getElem.mp hf
  have hval : (Merkle.lvl st 0)[i0] = e := by simpa using hpe
  have hi0cap : i0 < 2 ^ D := lt_of_lt_of_le hi0lt hcap
  have hlt2 : i0 < (st.tree.getD 0 []).length := hi0lt
  have he0 : (st.tree.getD 0 []).getD i0 0 = e := by
    rw [List.getD_eq_getElem _ _ hlt2]
    exact hval
  have hpath := Merkle.verifyFold_path H Z D st.tree hinv.tlen hok hwid D 0
    (by omega) i0 hlt2
  rw [Nat.div_eq_of_lt hi0cap, Nat.zero_add, he0] at hpath
  have hfold : Merkle.verifyFold H i0 e (Merkle.proofSiblings H Z D st i0) =
      Merkle.rootOf D st := by
    rw [Merkle.proofSiblings_eq]
    exact hpath
  have hmin : min i0 (2 ^ 32 - 1) = i0 := Nat.min_eq_left (by
    have h1 : (2 : Nat) ^ D ≤ 2 ^ 32 := Nat.pow_le_pow_right (by norm_num) hD
    omega)
  have hver : Merkle.mverify H
      ⟨e, Merkle.proofSiblings H Z D st i0, i0, Merkle.rootOf D st⟩ = true := by
    simp only [Merkle.mverify, hmin]
    exact decide_eq_true hfold
  refine ⟨⟨e, Merkle.proofSiblings H Z D st i0, i0, Merkle.rootOf D st⟩, ?_, hver⟩
  unfold Merkle.generateProof
  rw [hf]
  simp [hver]

/-- C2 witness: the amended theorem evaluated on the clean three-leaf xor
tree at the inserted element `3`. -/
theorem generate_proof_verifies_witness :
    ∃ pf, Merkle.generateProof Nat.xor 0 4 testTree3 3 = Except.ok pf ∧
      Merkle.mverify Nat.xor pf = true :=
  generate_proof_verifies Nat.xor 0 4 testTree3 3
    (Merkle.Built.rebuild (Merkle.Built.insert [1, 2, 3] 0 Merkle.Built.new))
    (by decide) (by decide) (by decide) (by decide)

namespace Operation

/-! ### `railgun/note/operation.rs`

`Operation<N>` restricted to what `verify` and `out_notes` read.  The
generic in-notes only contribute `value()` (`u128`), so they are carried as
their values; transfer and unshield notes keep an inert payload so that
note identity is preserved by `out_notes`.  `u128` arithmetic is `Nat`
with explicit reduction modulo `2 ^ 128`. -/

structure TransferNote where
  value : Nat
  payload : Nat
deriving DecidableEq

structure UnshieldNote where
  value : Nat
  payload : Nat
deriving DecidableEq

/-- `Box<dyn Note>` as `out_notes` builds it: either a transfer or an
unshield note. -/
inductive BoxedNote where
  | transfer (t : TransferNote)
  | unshield (u : UnshieldNote)
deriving DecidableEq

def BoxedNote.value : BoxedNote → Nat
  | .transfer t => t.value
  | .unshield u => u.value

structure Op where
  inNotes : List Nat
  outNotes : List TransferNote
  unshieldNote : Option UnshieldNote
deriving DecidableEq

inductive VerifyErr where
  | imbalanced (a b c : Nat)
  | tooManyOutputNotes (n : Nat)
  | tooManyInputNotes (n : Nat)
deriving DecidableEq

/-- `self.unshield_note.as_ref().map_or(0, |n| n.value())`. -/
def unshieldValue (op : Op) : Nat :=
  op.unshieldNote.elim 0 UnshieldNote.value

/-- `Operation::verify`.  The `u128` sums and the `out + unshield` addition
reduce modulo `2 ^ 128`. -/
def verify (op : Op) : Except VerifyErr Unit :=
  let inValue := op.inNotes.sum % 2 ^ 128
  let outValue := (op.outNotes.map TransferNote.value).sum % 2 ^ 128
  let uValue := unshieldValue op
  if inValue ≠ (outValue + uValue) % 2 ^ 128 then
    .error (.imbalanced inValue outValue uValue)
  else if op.outNotes.length + (if op.unshieldNote.isSome then 1 else 0) > 13 then
    .error (.tooManyOutputNotes op.outNotes.length)
  else if op.inNotes.length > 13 then
    .error (.tooManyInputNotes op.inNotes.length)
  else .ok ()

/-- `Operation::out_notes`: transfers in order, then the unshield note,
then drop every zero-value note. -/
def outNotes (op : Op) : List BoxedNote :=
  ((op.outNotes.map BoxedNote.transfer) ++
      (op.unshieldNote.map BoxedNote.unshield).toList).filter
    (fun n => 0 < n.value)

end Operation

/-! ## Claims C3 and C10 -/

/-- A balanced two-output operation used as the concrete witness input. -/
def opEx : Operation.Op := ⟨[100], [⟨60, 1⟩], some ⟨40, 2⟩⟩

/-- C3: under no-overflow of the `u128` sums, `Operation::verify` returns
`Ok(())` exactly when the value equation and both arity bounds hold, and in
the failing cases returns the `Imbalanced`, `TooManyOutputNotes` or
`TooManyInputNotes` error, checked in that order.  The embedded `verify` is
a pure function of the operation, so the operation itself is unchanged. -/
theorem operation_verify_iff (op : Operation.Op)
    (hin : op.inNotes.sum < 2 ^ 128)
    (hout : (op.outNotes.map Operation.TransferNote.value).sum +
      Operation.unshieldValue op < 2 ^ 128) :
    (Operation.verify op = Except.ok () ↔
      (op.inNotes.sum =
          (op.outNotes.map Operation.TransferNote.value).sum +
            Operation.unshieldValue op ∧
        op.outNotes.length + (if op.unshieldNote.isSome then 1 else 0) ≤ 13 ∧
        op.inNotes.length ≤ 13)) ∧
    (op.inNotes.sum ≠
        (op.outNotes.map Operation.TransferNote.value).sum +
          Operation.unshieldValue op →
      Operation.verify op = Except.error
        (Operation.VerifyErr.imbalanced op.inNotes.sum
          ((op.outNotes.map Operation.TransferNote.value).sum)
          (Operation.unshieldValue op))) ∧
    (op.inNotes.sum =
        (op.outNotes.map Operation.TransferNote.value).sum +
          Operation.unshieldValue op →
      op.outNotes.length + (if op.unshieldNote.isSome then 1 else 0) > 13 →
      Operation.verify op = Except.error
        (Operation.VerifyErr.tooManyOutputNotes op.outNotes.length)) ∧
    (op.inNotes.sum =
        (op.outNotes.map Operation.TransferNote.value).sum +
          Operation.unshieldValue op →
      op.outNotes.length + (if op.unshieldNote.isSome then 1 else 0) ≤ 13 →
      op.inNotes.length > 13 →
      Operation.verify op = Except.error
        (Operation.VerifyErr.tooManyInputNotes op.inNotes.length)) := by
  have hmod1 : op.inNotes.sum % 2 ^ 128 = op.inNotes.sum := Nat.mod_eq_of_lt hin
  have hmod2 : (op.outNotes.map Operation.TransferNote.value).sum % 2 ^ 128 =
      (op.outNotes.map Operation.TransferNote.value).sum :=
    Nat.mod_eq_of_lt (by omega)
  have hmod3 : ((op.outNotes.map Operation.TransferNote.value).sum +
      Operation.unshieldValue op) % 2 ^ 128 =
      (op.outNotes.map Operation.TransferNote.value).sum +
        Operation.unshieldValue op :=
    Nat.mod_eq_of_lt hout
  simp only [Operation.verify, hmod1, hmod2, hmod3]
  by_cases hbal : op.inNotes.sum =
      (op.outNotes.map Operation.TransferNote.value).sum +
        Operation.unshieldValue op
  · by_cases hol : op.outNotes.length +
        (if op.unshieldNote.isSome then 1 else 0) > 13
    · simp [hbal, hol]
    · by_cases hil : op.inNotes.length > 13
      · simp [hbal, hol, hil]
      · simp [hbal, hol, hil]
        omega
  · simp [hbal]

/-- C3 witness: the verdict on the concrete balanced operation `opEx`. -/
theorem operation_verify_iff_witness :
    (Operation.verify opEx = Except.ok () ↔
      (opEx.inNotes.sum =
          (opEx.outNotes.map Operation.TransferNote.value).sum +
            Operation.unshieldValue opEx ∧
        opEx.outNotes.length +
            (if opEx.unshieldNote.isSome then 1 else 0) ≤ 13 ∧
        opEx.inNotes.length ≤ 13)) ∧
    (opEx.inNotes.sum ≠
        (opEx.outNotes.map Operation.TransferNote.value).sum +
          Operation.unshieldValue opEx →
      Operation.verify opEx = Except.error
        (Operation.VerifyErr.imbalanced opEx.inNotes.sum
          ((opEx.outNotes.map Operation.TransferNote.value).sum)
          (Operation.unshieldValue opEx))) ∧
    (opEx.inNotes.sum =
        (opEx.outNotes.map Operation.TransferNote.value).sum +
          Operation.unshieldValue opEx →
      opEx.outNotes.length +
          (if opEx.unshieldNote.isSome then 1 else 0) > 13 →
      Operation.verify opEx = Except.error
        (Operation.VerifyErr.tooManyOutputNotes opEx.outNotes.length)) ∧
    (opEx.inNotes.sum =
        (opEx.outNotes.map Operation.TransferNote.value).sum +
          Operation.unshieldValue opEx →
      opEx.outNotes.length +
          (if opEx.unshieldNote.isSome then 1 else 0) ≤ 13 →
      opEx.inNotes.length > 13 →
      Operation.verify opEx = Except.error
        (Operation.VerifyErr.tooManyInputNotes opEx.inNotes.length)) :=
  operation_verify_iff opEx (by decide) (by decide)

/-- C10: `Operation::out_notes` emits only notes of strictly positive value,
and whenever a non-zero unshield note is present the result is exactly the
positive transfer notes in order followed by the unshield note last. -/
theorem out_notes_shape (op : Operation.Op) :
    (∀ n ∈ Operation.outNotes op, 0 < n.value) ∧
    (∀ u, op.unshieldNote = some u → 0 < u.value →
      Operation.outNotes op =
        (op.outNotes.map Operation.BoxedNote.transfer).filter
            (fun n => 0 < n.value) ++
          [Operation.BoxedNote.unshield u]) := by
  constructor
  · intro n hn
    have := List.of_mem_filter hn
    simpa using this
  · intro u hu hupos
    simp [Operation.outNotes, Operation.BoxedNote.value, hu, List.filter_append, hupos]

/-! ## Claim C7: `crypto/railgun_base_37.rs` -/

namespace Base37

/-- `CHARSET` as its byte values. -/
def CHARSET : List Nat := " 0123456789abcdefghijklmnopqrstuvwxyz".toList.map Char.toNat

/-- The same 37 characters, as characters. -/
def alphabet : List Char := " 0123456789abcdefghijklmnopqrstuvwxyz".toList

inductive EncodingError where
  | invalidCharacter (c : Char)
  | outputTooLong (n : Nat)
deriving DecidableEq

/-- `CHARSET.iter().position(|&b| b == c as u8)`; `c as u8` keeps the low
byte of the code point. -/
def charIdx (c : Char) : Option Nat :=
  CHARSET.findIdx? (fun b => b = c.toNat % 256)

/-- The accumulating loop of `encode`: `checked_mul`/`checked_add` fail
together exactly when `value * 37 + idx` overflows `u128`. -/
def encodeNum : List Char → Nat → Except EncodingError Nat
  | [], value => .ok value
  | c :: cs, value =>
      match charIdx c with
      | none => .error (.invalidCharacter c)
      | some idx =>
          if value * 37 + idx < 2 ^ 128 then encodeNum cs (value * 37 + idx)
          else .error (.outputTooLong 16)

/-- `u128::to_be_bytes`. -/
def toBeBytes16 (v : Nat) : List Nat :=
  (List.range 16).map fun i => v / 2 ^ (8 * (15 - i)) % 256

def encode (text : List Char) : Except EncodingError (List Nat) :=
  (encodeNum text 0).map toBeBytes16

/-- `u128::from_be_bytes`. -/
def fromBeBytes16 (bytes : List Nat) : Nat :=
  bytes.foldl (fun acc b => acc * 256 + b % 256) 0

/-- The `while value > 0` digit loop of `decode`, with enough fuel. -/
def decodeLoop : Nat → Nat → List Char
  | 0, _ => []
  | fuel + 1, value =>
      if value > 0 then
        Char.ofNat (CHARSET.getD (value % 37) 0) :: decodeLoop fuel (value / 37)
      else []

def decode (bytes : List Nat) : List Char :=
  (decodeLoop 128 (fromBeBytes16 bytes)).reverse

/-- The charset index of an alphabet character, as a total function. -/
def cIdx (c : Char) : Nat := alphabet.indexOf c

theorem alphabet_facts : ∀ c ∈ alphabet,
    charIdx c = some (cIdx c) ∧ cIdx c < 37 ∧
    Char.ofNat (CHARSET.getD (cIdx c) 0) = c ∧ (c ≠ ' ' → cIdx c ≠ 0) := by
  decide

theorem encodeNum_spec : ∀ (s : List Char) (a v : Nat),
    (∀ c ∈ s, c ∈ alphabet) → a < 2 ^ 128 → encodeNum s a = .ok v →
    v < 2 ^ 128 ∧
      v = a * 37 ^ s.length + Nat.ofDigits 37 (s.map cIdx).reverse := by
  intro s
  induction s with
  | nil =>
    intro a v _ ha h
    simp [encodeNum] at h
    subst h
    simp [Nat.ofDigits]
    exact ha
  | cons c cs ih =>
    intro a v hmem ha h
    have hc := alphabet_facts c (hmem c (by simp))
    rw [encodeNum, hc.1] at h
    have h2 : (if a * 37 + cIdx c < 2 ^ 128 then
        encodeNum cs (a * 37 + cIdx c)
      else Except.error (EncodingError.outputTooLong 16)) = Except.ok v := h
    by_cases hlt : a * 37 + cIdx c < 2 ^ 128
    · rw [if_pos hlt] at h2
      obtain ⟨hv, heq⟩ := ih (a * 37 + cIdx c) v
        (fun x hx => hmem x (by simp [hx])) hlt h2
      refine ⟨hv, ?_⟩
      rw [heq]
      simp only [List.map_cons, List.reverse_cons, Nat.ofDigits_append,
        List.length_reverse, List.length_map, List.length_cons]
      rw [Nat.ofDigits_singleton]
      ring
    · rw [if_neg hlt] at h2
      exact absurd h2 (by simp)

theorem decodeLoop_digits : ∀ (fuel v : Nat), v < 37 ^ fuel →
    decodeLoop fuel v =
      (Nat.digits 37 v).map fun d => Char.ofNat (CHARSET.getD d 0) := by
  intro fuel
  induction fuel with
  | zero =>
    intro v hv
    interval_cases v
    simp [decodeLoop]
  | succ fuel ih =>
    intro v hv
    rcases Nat.eq_zero_or_pos v with h0 | hpos
    · subst h0
      simp [decodeLoop]
    · rw [decodeLoop, if_pos hpos, Nat.digits_def' (by norm_num : 1 < 37) hpos,
        List.map_cons, ih (v / 37) (Nat.div_lt_of_lt_mul (by rwa [pow_succ'] at hv))]

theorem fromBe_toBe (v : Nat) (hv : v < 2 ^ 128) :
    fromBeBytes16 (toBeBytes16 v) = v := by
  have key : ∀ j, j ≤ 16 →
      List.foldl (fun acc b => acc * 256 + b % 256) 0
        ((List.range j).map fun i => v / 2 ^ (8 * (15 - i)) % 256) =
      v / 2 ^ (8 * (16 - j)) % 2 ^ (8 * j) := by
    intro j
    induction j with
    | zero =>
      intro _
      simp
      omega
    | succ j ih =>
      intro hj
      have h15 : 16 - (j + 1) = 15 - j := by omega
      have hA : (2 : Nat) ^ (8 * (16 - j)) = 2 ^ (8 * (15 - j)) * 256 := by
        rw [show 8 * (16 - j) = 8 * (15 - j) + 8 by omega, pow_add]
        norm_num
      have hB : (2 : Nat) ^ (8 * (j + 1)) = 256 * 2 ^ (8 * j) := by
        rw [show 8 * (j + 1) = 8 + 8 * j by omega, pow_add]
        norm_num
      rw [List.range_succ, List.map_append, List.map_cons, List.map_nil,
        List.foldl_append, ih (by omega), List.foldl_cons, List.foldl_nil,
        h15, hA, hB, ← Nat.div_div_eq_div_mul, Nat.mod_mul, Nat.mod_mod]
      ring
  have h16 := key 16 (le_refl 16)
  have hmod : v / 2 ^ (8 * (16 - 16)) % 2 ^ (8 * 16) = v := by
    norm_num
    omega
  rw [hmod] at h16
  simpa [fromBeBytes16, toBeBytes16] using h16

end Base37

/-- C7 counterexample: a leading space survives `encode` (index `0`
contributes nothing to the accumulator) but is dropped by `decode`, so the
round trip fails on `" "`. -/
theorem base37_space_lost :
    (∀ c ∈ [' '], c ∈ Base37.alphabet) ∧
      Base37.encode [' '] = Except.ok (List.replicate 16 0) ∧
      Base37.decode (List.replicate 16 0) = [] :=
  ⟨by decide, by rfl, by rfl⟩

/-- C7 (amended): for every string over the 37-character alphabet that does
not begin with the space character, if `encode` succeeds then `decode`
inverts it. -/
theorem base37_decode_encode (s : List Char) (bs : List Nat)
    (halpha : ∀ c ∈ s, c ∈ Base37.alphabet)
    (hlead : s.head? ≠ some ' ')
    (henc : Base37.encode s = Except.ok bs) :
    Base37.decode bs = s := by
  cases hv : Base37.encodeNum s 0 with
  | error e =>
    rw [Base37.encode, hv] at henc
    exact absurd henc (by simp [Except.map])
  | ok v =>
    rw [Base37.encode, hv] at henc
    have hbs : bs = Base37.toBeBytes16 v := by
      simpa [Except.map] using henc.symm
    obtain ⟨hvlt, hveq⟩ := Base37.encodeNum_spec s 0 v halpha (by norm_num) hv
    subst hbs
    rw [Base37.decode, Base37.fromBe_toBe v hvlt, Base37.decodeLoop_digits 128 v
      (lt_of_lt_of_le hvlt (Nat.pow_le_pow_left (by norm_num) 128))]
    have hveq2 : v = Nat.ofDigits 37 (s.map Base37.cIdx).reverse := by
      rw [hveq]; ring
    cases s with
    | nil =>
      simp [Nat.ofDigits] at hveq2
      subst hveq2
      simp
    | cons c cs =>
      have hc : c ∈ Base37.alphabet := halpha c (by simp)
      have hcne : c ≠ ' ' := by
        intro hsp
        rw [hsp] at hlead
        simp at hlead
      have hdlt : ∀ d ∈ ((c :: cs).map Base37.cIdx).reverse, d < 37 := by
        intro d hd
        rw [List.mem_reverse] at hd
        obtain ⟨x, hx, hxd⟩ := List.mem_map.mp hd
        rw [← hxd]
        exact ((Base37.alphabet_facts x (halpha x hx)).2).1
      have hrev : ((c :: cs).map Base37.cIdx).reverse =
          (cs.map Base37.cIdx).reverse ++ [Base37.cIdx c] := by
        simp
      have hdlt2 : ∀ d ∈ (cs.map Base37.cIdx).reverse ++ [Base37.cIdx c],
          d < 37 := by
        rw [← hrev]; exact hdlt
      have hlast2 : ∀ (h : (cs.map Base37.cIdx).reverse ++
            [Base37.cIdx c] ≠ []),
          ((cs.map Base37.cIdx).reverse ++ [Base37.cIdx c]).getLast h ≠ 0 := by
        intro h
        rw [List.getLast_concat]
        exact ((Base37.alphabet_facts c hc).2).2.2 hcne
      have hdig : Nat.digits 37 v = ((c :: cs).map Base37.cIdx).reverse := by
        rw [hveq2, hrev]
        exact Nat.digits_ofDigits 37 (by norm_num) _ hdlt2 hlast2
      rw [hdig, ← List.map_reverse, List.reverse_reverse, List.map_map]
      have : ((fun d => Char.ofNat (Base37.CHARSET.getD d 0)) ∘ Base37.cIdx) =
          fun x => Char.ofNat (Base37.CHARSET.getD (Base37.cIdx x) 0) := rfl
      rw [this]
      have hmapid : ∀ (t : List Char), (∀ x ∈ t, x ∈ Base37.alphabet) →
          t.map (fun x => Char.ofNat (Base37.CHARSET.getD (Base37.cIdx x) 0)) =
            t := by
        intro t
        induction t with
        | nil => intro _; simp
        | cons y ys ihy =>
          intro hmem
          rw [List.map_cons, ihy (fun x hx => hmem x (by simp [hx])),
            ((Base37.alphabet_facts y (hmem y (by simp))).2).2.1]
      exact hmapid (c :: cs) halpha

/-- C7 witness: the round trip evaluated on `"hello"`. -/
theorem base37_decode_encode_witness :
    Base37.decode [0, 0, 0, 0, 0, 0, 0, 0, 0, 0, 0, 0, 2, 14, 209, 210] =
      ['h', 'e', 'l', 'l', 'o'] :=
  base37_decode_encode ['h', 'e', 'l', 'l', 'o']
    [0, 0, 0, 0, 0, 0, 0, 0, 0, 0, 0, 0, 2, 14, 209, 210]
    (by decide) (by decide) (by rfl)

/-! ## Claim C8: `railgun/indexer/notebook.rs` -/

namespace Notebook

/-- `BTreeMap<u32, UtxoNote>` as an association list in ascending key order
(the map's iteration order).  The note type is abstract: `nullify` touches a
note only through `nullifier(leaf_index)`, supplied as the oracle `nf`. -/
structure NB (α : Type) where
  unspent : List (Nat × α)
  spent : List (Nat × α)
deriving DecidableEq

/-- `BTreeMap::insert` on the sorted association list. -/
def insertSorted {α : Type} (k : Nat) (v : α) :
    List (Nat × α) → List (Nat × α)
  | [] => [(k, v)]
  | (k2, v2) :: rest =>
      if k < k2 then (k, v) :: (k2, v2) :: rest
      else if k = k2 then (k, v) :: rest
      else (k2, v2) :: insertSorted k v rest

/-- `BTreeMap::get`-style lookup. -/
def lookupA {α : Type} (k : Nat) (l : List (Nat × α)) : Option α :=
  (l.find? (fun kv => kv.1 = k)).map (·.2)

/-- `Notebook::nullify`: find the first unspent note whose nullifier at its
own leaf index matches, move it to the spent map, return it.  The timestamp
is ignored, as in the source. -/
def nullify {α : Type} (nf : α → Nat → Nat) (nb : NB α) (n : Nat)
    (ts : Nat) : Option α × NB α :=
  match nb.unspent.find? (fun kv => nf kv.2 kv.1 = n) with
  | none => (none, nb)
  | some kv =>
      (some kv.2,
        ⟨nb.unspent.eraseP (fun e => e.1 = kv.1),
          insertSorted kv.1 kv.2 nb.spent⟩)

theorem lookupA_insertSorted_self {α : Type} (k : Nat) (v : α)
    (l : List (Nat × α)) : lookupA k (insertSorted k v l) = some v := by
  induction l with
  | nil => simp [insertSorted, lookupA, List.find?]
  | cons kv rest ih =>
    obtain ⟨k2, v2⟩ := kv
    by_cases h1 : k < k2
    · simp [insertSorted, h1, lookupA, List.find?]
    · by_cases h2 : k = k2
      · simp [insertSorted, h1, h2, lookupA, List.find?]
      · have h3 : ¬ (k2 = k) := fun h => h2 h.symm
        simp only [insertSorted, if_neg h1, if_neg h2]
        simpa [lookupA, List.find?, h3] using ih

theorem lookupA_insertSorted_ne {α : Type} (k k2 : Nat) (v : α)
    (l : List (Nat × α)) (hne : k2 ≠ k) :
    lookupA k2 (insertSorted k v l) = lookupA k2 l := by
  have hkk : ¬ (k = k2) := fun h => hne h.symm
  induction l with
  | nil => simp [insertSorted, lookupA, List.find?, hkk]
  | cons kv rest ih =>
    obtain ⟨k3, v3⟩ := kv
    by_cases h1 : k < k3
    · simp [insertSorted, h1, lookupA, List.find?, hkk]
    · by_cases h2 : k = k3
      · subst h2
        simp [insertSorted, h1, lookupA, List.find?, hkk]
      · simp only [insertSorted, if_neg h1, if_neg h2]
        by_cases h4 : k3 = k2
        · simp [lookupA, List.find?, h4]
        · simpa [lookupA, List.find?, h4] using ih

end Notebook

/-- C8: `Notebook::nullify(n, ts)` scans the unspent map in leaf-index
order; if no unspent note's nullifier at its own leaf index equals `n` it
returns `None` and leaves both maps unchanged, and otherwise it returns the
first matching note, removes exactly it from the unspent map, and inserts
it into the spent map at the same leaf index (other spent entries
untouched). -/
theorem notebook_nullify_spec {α : Type} (nf : α → Nat → Nat) (nb : Notebook.NB α)
    (n ts : Nat)
    (hsort : nb.unspent.Pairwise (fun a b => a.1 < b.1)) :
    ((∀ kv ∈ nb.unspent, nf kv.2 kv.1 ≠ n) →
      Notebook.nullify nf nb n ts = (none, nb)) ∧
    (∀ pre k v post, nb.unspent = pre ++ (k, v) :: post →
      (∀ kv ∈ pre, nf kv.2 kv.1 ≠ n) → nf v k = n →
      Notebook.nullify nf nb n ts =
          (some v, ⟨pre ++ post, Notebook.insertSorted k v nb.spent⟩) ∧
        Notebook.lookupA k (Notebook.insertSorted k v nb.spent) = some v ∧
        (∀ k2, k2 ≠ k →
          Notebook.lookupA k2 (Notebook.insertSorted k v nb.spent) = Notebook.lookupA k2 nb.spent)) := by
  constructor
  · intro hnone
    have hf : nb.unspent.find? (fun kv => nf kv.2 kv.1 = n) = none := by
      rw [List.find?_eq_none]
      intro x hx
      simpa using hnone x hx
    rw [Notebook.nullify, hf]
  · intro pre k v post hsplit hpre hmatch
    have hf : nb.unspent.find? (fun kv => nf kv.2 kv.1 = n) = some (k, v) := by
      rw [hsplit, List.find?_append]
      have h1 : pre.find? (fun kv => nf kv.2 kv.1 = n) = none := by
        rw [List.find?_eq_none]
        intro x hx
        simpa using hpre x hx
      rw [h1, List.find?_cons_of_pos _ (by simpa using hmatch)]
      rfl
    have hkeys : ∀ kv ∈ pre, kv.1 ≠ k := by
      intro kv hkv
      rw [hsplit] at hsort
      have := (List.pairwise_append.mp hsort).2.2 kv hkv (k, v) (by simp)
      omega
    have herase : nb.unspent.eraseP (fun e => e.1 = k) = pre ++ post := by
      rw [hsplit, List.eraseP_append_right, List.eraseP_cons_of_pos (by simp)]
      intro x hx
      simpa using hkeys x hx
    refine ⟨?_, Notebook.lookupA_insertSorted_self k v nb.spent,
      fun k2 hk2 => Notebook.lookupA_insertSorted_ne k k2 v nb.spent hk2⟩
    rw [Notebook.nullify, hf]
    simpa using herase

/-- C8 witness: nullifying the note at leaf 3 of a concrete two-note
notebook. -/
theorem notebook_nullify_spec_witness :
    Notebook.nullify (fun v k => v + k) ⟨[(1, 10), (3, 20)], []⟩ 23 0 =
      (some 20, ⟨[(1, 10)], [(3, 20)]⟩) :=
  ((notebook_nullify_spec (fun v k => v + k) ⟨[(1, 10), (3, 20)], []⟩ 23 0
      (by decide)).2 [(1, 10)] 3 20 [] rfl (by decide) (by decide)).1

/-! ## Claim C9: `railgun/indexer/txid_tree_set.rs` -/

namespace TxidSet

/-- `TOTAL_LEAVES = 1 << TREE_DEPTH` with `TREE_DEPTH = 16`. -/
def TOTAL_LEAVES : Nat := 2 ^ 16

/-- `TxidTreeSet` restricted to what the drain logic of `update` touches:
the txid trees (as a sorted assoc list of leaf lists, tree number to
leaves), the pending FIFO queue of `(operation, block)` pairs (operations
as abstract ids) and the packed validated index.  The txid position maps
and the POI client are outside the drain claim. -/
structure TS where
  trees : List (Nat × List Nat)
  pending : List (Nat × Nat)
  validatedIndex : Nat
deriving DecidableEq

/-- `self.trees.values().map(|t| t.leaves_len()).sum()`. -/
def currentTotal (trees : List (Nat × List Nat)) : Nat :=
  (trees.map (fun t => t.2.length)).sum

/-- `self.trees.entry(tn).or_insert_with(new)` followed by an in-place
mutation of that tree, on the sorted assoc list. -/
def entryUpdate (f : List Nat → List Nat) (tn : Nat) :
    List (Nat × List Nat) → List (Nat × List Nat)
  | [] => [(tn, f [])]
  | (k, v) :: rest =>
      if tn < k then (tn, f []) :: (k, v) :: rest
      else if tn = k then (k, f v) :: rest
      else (k, v) :: entryUpdate f tn rest

/-- The per-operation body of the drain loop: compute the global position,
insert the operation's txid leaf there (`insert_leaves(&[leaf], position)`
resizes with zero leaves and writes), advance the running total. -/
def drainLoop (leafOf : Nat → Nat) :
    List (Nat × Nat) → Nat → List (Nat × List Nat) → List (Nat × List Nat)
  | [], _, trees => trees
  | (op, _) :: rest, total, trees =>
      drainLoop leafOf rest (total + 1)
        (entryUpdate
          (fun l => Merkle.writeSeq
            (Merkle.resizeTo l (total % TOTAL_LEAVES + 1) 0)
            (total % TOTAL_LEAVES) [leafOf op])
          (total / TOTAL_LEAVES) trees)

/-- The pure drain core of `TxidTreeSet::update`, with the aggregator's
validated `(tree, leaf_index)` supplied as inputs and the leaf hash of an
operation abstracted as `leafOf`. -/
def update (leafOf : Nat → Nat) (ts : TS) (vtree vleaf : Nat) : TS :=
  let current := currentTotal ts.trees
  let target := vtree * TOTAL_LEAVES + vleaf + 1
  let toDrain := target - current
  if toDrain = 0 then ts
  else
    let drainCount := min toDrain ts.pending.length
    { trees := drainLoop leafOf (ts.pending.take drainCount) current ts.trees
      pending := ts.pending.drop drainCount
      validatedIndex := current + drainCount }

/-- Reading leaf `pos` of tree `tn`. -/
def getLeaf (trees : List (Nat × List Nat)) (tn pos : Nat) : Nat :=
  ((Notebook.lookupA tn trees).getD []).getD pos 0

theorem lookupA_entryUpdate_ne (f : List Nat → List Nat) (tn tn2 : Nat)
    (l : List (Nat × List Nat)) (hne : tn2 ≠ tn) :
    Notebook.lookupA tn2 (entryUpdate f tn l) = Notebook.lookupA tn2 l := by
  have h1 : ¬ (tn = tn2) := fun h => hne h.symm
  induction l with
  | nil => simp [entryUpdate, Notebook.lookupA, List.find?, h1]
  | cons kv rest ih =>
    obtain ⟨k, v⟩ := kv
    by_cases h2 : tn < k
    · simp [entryUpdate, h2, Notebook.lookupA, List.find?, h1]
    · by_cases h3 : tn = k
      · subst h3
        simp [entryUpdate, h2, Notebook.lookupA, List.find?, h1]
      · simp only [entryUpdate, if_neg h2, if_neg h3]
        by_cases h4 : k = tn2
        · simp [Notebook.lookupA, List.find?, h4]
        · simpa [Notebook.lookupA, List.find?, h4] using ih

theorem lookupA_entryUpdate_self (f : List Nat → List Nat) (tn : Nat)
    (l : List (Nat × List Nat))
    (hsort : l.Pairwise (fun a b => a.1 < b.1)) :
    Notebook.lookupA tn (entryUpdate f tn l) =
      some (f ((Notebook.lookupA tn l).getD [])) := by
  induction l with
  | nil => simp [entryUpdate, Notebook.lookupA, List.find?]
  | cons kv rest ih =>
    obtain ⟨k, v⟩ := kv
    rw [List.pairwise_cons] at hsort
    by_cases h2 : tn < k
    · have hfind : List.find? (fun kv => decide (kv.1 = tn)) ((k, v) :: rest) =
          none := by
        rw [List.find?_eq_none]
        intro x hx
        rcases List.mem_cons.mp hx with h | h
        · subst h; simp; omega
        · have := hsort.1 x h; simp; omega
      have hnone : Notebook.lookupA tn ((k, v) :: rest) = none := by
        simp [Notebook.lookupA, hfind]
      simp only [entryUpdate, if_pos h2, hnone]
      simp [Notebook.lookupA, List.find?]
    · by_cases h3 : tn = k
      · subst h3
        simp [entryUpdate, h2, Notebook.lookupA, List.find?]
      · simp only [entryUpdate, if_neg h2, if_neg h3]
        have hk : ¬ (k = tn) := fun h => h3 h.symm
        simpa [Notebook.lookupA, List.find?, hk] using ih hsort.2

theorem mem_entryUpdate (f : List Nat → List Nat) (tn : Nat) :
    ∀ (l : List (Nat × List Nat)) b, b ∈ entryUpdate f tn l →
      b.1 = tn ∨ b ∈ l := by
  intro l
  induction l with
  | nil =>
    intro b hb
    simp [entryUpdate] at hb
    left; rw [hb]
  | cons kv rest ih =>
    obtain ⟨k, v⟩ := kv
    intro b hb
    by_cases h4 : tn < k
    · rw [entryUpdate, if_pos h4] at hb
      rcases List.mem_cons.mp hb with h | h
      · left; rw [h]
      · right; exact h
    · by_cases h5 : tn = k
      · rw [entryUpdate, if_neg h4, if_pos h5] at hb
        rcases List.mem_cons.mp hb with h | h
        · left; rw [h]; exact h5.symm
        · right; exact List.mem_cons_of_mem _ h
      · rw [entryUpdate, if_neg h4, if_neg h5] at hb
        rcases List.mem_cons.mp hb with h | h
        · right; rw [h]; exact List.mem_cons_self _ _
        · rcases ih b h with h6 | h6
          · left; exact h6
          · right; exact List.mem_cons_of_mem _ h6

theorem entryUpdate_pairwise (f : List Nat → List Nat) (tn : Nat)
    (l : List (Nat × List Nat))
    (hsort : l.Pairwise (fun a b => a.1 < b.1)) :
    (entryUpdate f tn l).Pairwise (fun a b => a.1 < b.1) := by
  induction l with
  | nil => simp [entryUpdate]
  | cons kv rest ih =>
    obtain ⟨k, v⟩ := kv
    rw [List.pairwise_cons] at hsort
    by_cases h2 : tn < k
    · rw [entryUpdate, if_pos h2, List.pairwise_cons]
      refine ⟨?_, List.Pairwise.cons hsort.1 hsort.2⟩
      intro b hb
      rcases List.mem_cons.mp hb with h | h
      · rw [h]; exact h2
      · have := hsort.1 b h
        show tn < b.1
        omega
    · by_cases h3 : tn = k
      · rw [entryUpdate, if_neg h2, if_pos h3, List.pairwise_cons]
        exact ⟨hsort.1, hsort.2⟩
      · rw [entryUpdate, if_neg h2, if_neg h3, List.pairwise_cons]
        refine ⟨?_, ih hsort.2⟩
        intro b hb
        rcases mem_entryUpdate f tn rest b hb with h | h
        · show k < b.1
          omega
        · exact hsort.1 b h

theorem drainLoop_preserve (leafOf : Nat → Nat) :
    ∀ (ops : List (Nat × Nat)) (total : Nat) (trees : List (Nat × List Nat)),
      trees.Pairwise (fun a b => a.1 < b.1) →
      ∀ tn pos, tn * TOTAL_LEAVES + pos < total → pos < TOTAL_LEAVES →
        pos < ((Notebook.lookupA tn trees).getD []).length →
        getLeaf (drainLoop leafOf ops total trees) tn pos =
          getLeaf trees tn pos := by
  intro ops
  induction ops with
  | nil =>
    intro total trees _ tn pos _ _ _
    rfl
  | cons ob rest ih =>
    obtain ⟨op, blk⟩ := ob
    intro total trees hsort tn pos hglobal hposlt hlen
    rw [drainLoop]
    set f := fun l => Merkle.writeSeq
      (Merkle.resizeTo l (total % TOTAL_LEAVES + 1) 0)
      (total % TOTAL_LEAVES) [leafOf op] with hfdef
    have hsort2 := entryUpdate_pairwise f (total / TOTAL_LEAVES) trees hsort
    by_cases hcase : total / TOTAL_LEAVES = tn
    · -- same tree: this write lands strictly above pos
      subst hcase
      have hpos1 : pos < total % TOTAL_LEAVES := by
        simp only [TOTAL_LEAVES] at hglobal hposlt ⊢
        omega
      have hlook := lookupA_entryUpdate_self f (total / TOTAL_LEAVES)
        trees hsort
      set l := (Notebook.lookupA (total / TOTAL_LEAVES) trees).getD []
        with hldef
      have hresl : total % TOTAL_LEAVES ≤
          (Merkle.resizeTo l (total % TOTAL_LEAVES + 1) 0).length := by
        rw [Merkle.length_resizeTo]
        omega
      have hflen : (f l).length =
          max l.length (total % TOTAL_LEAVES + 1) := by
        rw [hfdef]
        have h1 : (Merkle.writeSeq
            (Merkle.resizeTo l (total % TOTAL_LEAVES + 1) 0)
            (total % TOTAL_LEAVES) [leafOf op]).length =
            (Merkle.resizeTo l (total % TOTAL_LEAVES + 1) 0).length := by
          apply Merkle.length_writeSeq
          simp only [List.length_cons, List.length_nil]
          rw [Merkle.length_resizeTo]
          omega
        rw [h1, Merkle.length_resizeTo]
      have hfval : (f l).getD pos 0 = l.getD pos 0 := by
        rw [hfdef]
        rw [Merkle.getD_writeSeq_lt _ _ _ _ hresl hpos1]
        exact Merkle.getD_resizeTo_lt l _ 0 0 hlen
      rw [ih (total + 1) _ hsort2 (total / TOTAL_LEAVES) pos (by omega)
        hposlt (by rw [hlook]; simp only [Option.getD_some, hflen]; omega)]
      rw [getLeaf, getLeaf, hlook]
      simpa using hfval
    · -- different tree: the entry is untouched
      have hlook := lookupA_entryUpdate_ne f (total / TOTAL_LEAVES) tn trees
        (fun h => hcase h.symm)
      rw [ih (total + 1) _ hsort2 tn pos (by omega) hposlt
        (by rw [hlook]; exact hlen)]
      rw [getLeaf, getLeaf, hlook]

theorem drainLoop_getLeaf (leafOf : Nat → Nat) :
    ∀ (ops : List (Nat × Nat)) (total : Nat) (trees : List (Nat × List Nat)),
      trees.Pairwise (fun a b => a.1 < b.1) →
      ∀ j, j < ops.length →
        getLeaf (drainLoop leafOf ops total trees)
            ((total + j) / TOTAL_LEAVES) ((total + j) % TOTAL_LEAVES) =
          leafOf (ops.getD j (0, 0)).1 := by
  intro ops
  induction ops with
  | nil =>
    intro _ _ _ j hj
    simp at hj
  | cons ob rest ih =>
    obtain ⟨op, blk⟩ := ob
    intro total trees hsort j hj
    rw [drainLoop]
    set f := fun l => Merkle.writeSeq
      (Merkle.resizeTo l (total % TOTAL_LEAVES + 1) 0)
      (total % TOTAL_LEAVES) [leafOf op] with hfdef
    have hsort2 := entryUpdate_pairwise f (total / TOTAL_LEAVES) trees hsort
    cases j with
    | zero =>
      -- the head write, preserved by the rest of the loop
      have hlook := lookupA_entryUpdate_self f (total / TOTAL_LEAVES)
        trees hsort
      set l := (Notebook.lookupA (total / TOTAL_LEAVES) trees).getD []
        with hldef
      have hresl : total % TOTAL_LEAVES ≤
          (Merkle.resizeTo l (total % TOTAL_LEAVES + 1) 0).length := by
        rw [Merkle.length_resizeTo]
        omega
      have hwrite : (f l).getD (total % TOTAL_LEAVES) 0 = leafOf op := by
        rw [hfdef]
        rw [Merkle.getD_writeSeq_in _ _ _ _ hresl (le_refl _) (by simp)]
        simp
      have hflen : total % TOTAL_LEAVES < (f l).length := by
        rw [hfdef]
        have h1 : (Merkle.writeSeq
            (Merkle.resizeTo l (total % TOTAL_LEAVES + 1) 0)
            (total % TOTAL_LEAVES) [leafOf op]).length =
            (Merkle.resizeTo l (total % TOTAL_LEAVES + 1) 0).length := by
          apply Merkle.length_writeSeq
          simp only [List.length_cons, List.length_nil]
          rw [Merkle.length_resizeTo]
          omega
        rw [h1, Merkle.length_resizeTo]
        omega
      have hmodlt : total % TOTAL_LEAVES < TOTAL_LEAVES :=
        Nat.mod_lt _ (by norm_num [TOTAL_LEAVES])
      have hglobal : (total / TOTAL_LEAVES) * TOTAL_LEAVES +
          total % TOTAL_LEAVES < total + 1 := by
        simp only [TOTAL_LEAVES]
        omega
      simp only [Nat.add_zero]
      rw [drainLoop_preserve leafOf rest (total + 1) _ hsort2
        (total / TOTAL_LEAVES) (total % TOTAL_LEAVES) hglobal hmodlt
        (by rw [hlook]; simpa using hflen)]
      rw [getLeaf, hlook]
      simpa using hwrite
    | succ j2 =>
      have hrec := ih (total + 1) _ hsort2 j2 (by simpa using hj)
      rw [show total + (j2 + 1) = total + 1 + j2 by omega]
      rw [hrec]
      simp

end TxidSet

/-- C9: on `TxidTreeSet::update`, with the aggregator reporting validated
position `(vtree, vleaf)`, the drained count is
`min(target_total - current_total, pending.len())` with
`target_total = vtree * 2^16 + vleaf + 1` and `current_total` the total
leaf count; the queue keeps the remaining operations in their original
order (`drop`), and the drained operations' txid leaves land at
consecutive global positions starting at `current_total`, crossing tree
boundaries every `2^16` leaves. -/
theorem txid_update_drain (leafOf : Nat → Nat) (ts : TxidSet.TS)
    (vtree vleaf : Nat)
    (hsort : ts.trees.Pairwise (fun a b => a.1 < b.1)) :
    (TxidSet.update leafOf ts vtree vleaf).pending =
        ts.pending.drop
          (min
            (vtree * TxidSet.TOTAL_LEAVES + vleaf + 1 -
              TxidSet.currentTotal ts.trees)
            ts.pending.length) ∧
    (∀ j, j < min
        (vtree * TxidSet.TOTAL_LEAVES + vleaf + 1 -
          TxidSet.currentTotal ts.trees)
        ts.pending.length →
      TxidSet.getLeaf (TxidSet.update leafOf ts vtree vleaf).trees
          ((TxidSet.currentTotal ts.trees + j) / TxidSet.TOTAL_LEAVES)
          ((TxidSet.currentTotal ts.trees + j) % TxidSet.TOTAL_LEAVES) =
        leafOf (ts.pending.getD j (0, 0)).1) := by
  by_cases h0 : vtree * TxidSet.TOTAL_LEAVES + vleaf + 1 -
      TxidSet.currentTotal ts.trees = 0
  · constructor
    · simp [TxidSet.update, h0]
    · intro j hj
      rw [h0] at hj
      simp at hj
  · have hupd : TxidSet.update leafOf ts vtree vleaf =
        { trees := TxidSet.drainLoop leafOf
            (ts.pending.take
              (min
                (vtree * TxidSet.TOTAL_LEAVES + vleaf + 1 -
                  TxidSet.currentTotal ts.trees)
                ts.pending.length))
            (TxidSet.currentTotal ts.trees) ts.trees
          pending := ts.pending.drop
            (min
              (vtree * TxidSet.TOTAL_LEAVES + vleaf + 1 -
                TxidSet.currentTotal ts.trees)
              ts.pending.length)
          validatedIndex := TxidSet.currentTotal ts.trees +
            min
              (vtree * TxidSet.TOTAL_LEAVES + vleaf + 1 -
                TxidSet.currentTotal ts.trees)
              ts.pending.length } := by
      rw [TxidSet.update]
      simp only [h0, if_false]
    refine ⟨by rw [hupd], ?_⟩
    intro j hj
    rw [hupd]
    have hklen : (ts.pending.take
        (min
          (vtree * TxidSet.TOTAL_LEAVES + vleaf + 1 -
            TxidSet.currentTotal ts.trees)
          ts.pending.length)).length =
        min
          (vtree * TxidSet.TOTAL_LEAVES + vleaf + 1 -
            TxidSet.currentTotal ts.trees)
          ts.pending.length := by
      rw [List.length_take]
      omega
    rw [TxidSet.drainLoop_getLeaf leafOf _ _ _ hsort j (by rw [hklen]; exact hj)]
    congr 1
    rw [List.getD_eq_getElem?_getD, List.getD_eq_getElem?_getD,
      List.getElem?_take_of_lt hj]

/-- C9 witness: draining two of three pending operations into tree 0. -/
theorem txid_update_drain_witness :
    (TxidSet.update (fun op => op * 10)
        ⟨[], [(7, 100), (8, 101), (9, 102)], 0⟩ 0 1).pending =
        [(7, 100), (8, 101), (9, 102)].drop
          (min (0 * TxidSet.TOTAL_LEAVES + 1 + 1 - TxidSet.currentTotal [])
            [(7, 100), (8, 101), (9, 102)].length) ∧
    (∀ j, j < min (0 * TxidSet.TOTAL_LEAVES + 1 + 1 -
        TxidSet.currentTotal []) [(7, 100), (8, 101), (9, 102)].length →
      TxidSet.getLeaf
          (TxidSet.update (fun op => op * 10)
            ⟨[], [(7, 100), (8, 101), (9, 102)], 0⟩ 0 1).trees
          ((TxidSet.currentTotal [] + j) / TxidSet.TOTAL_LEAVES)
          ((TxidSet.currentTotal [] + j) % TxidSet.TOTAL_LEAVES) =
        (fun op => op * 10)
          ([(7, 100), (8, 101), (9, 102)].getD j (0, 0)).1) :=
  txid_update_drain (fun op => op * 10)
    ⟨[], [(7, 100), (8, 101), (9, 102)], 0⟩ 0 1 (by decide)

/-! ## Claim C6: `railgun/address.rs` -/

namespace Address

inductive ChainId where
  | evm (id : Nat)
  | all
deriving DecidableEq

/-- `RailgunAddress`: keys carried as their 32 raw bytes. -/
structure RailgunAddress where
  masterKey : List Nat
  viewingPubkey : List Nat
  chainId : ChainId
deriving DecidableEq

/-- Parse failures; a Rust `str` slice whose range exceeds the string is a
panic, modelled as its own variant. -/
inductive AddrErr where
  | panicSliceOutOfRange (a b len : Nat)
  | invalidChainId (b : Nat)
  | invalidVersion (v : Nat)
  | invalidKeyLength
deriving DecidableEq

/-- `b"railgun"`. -/
def RAILGUN : List Nat := [114, 97, 105, 108, 103, 117, 110]

/-- `xor_network_id`, on bytes: xor with `railgun`, zero beyond it. -/
def xorNetworkId (bytes : List Nat) : List Nat :=
  (List.range bytes.length).map fun i =>
    Nat.xor (bytes.getD i 0) (RAILGUN.getD i 0)

/-- `u64::to_be_bytes`. -/
def toBeBytes8 (v : Nat) : List Nat :=
  (List.range 8).map fun i => v / 2 ^ (8 * (7 - i)) % 256

/-- `encode_evm_chain_id`: byte 0 forced to zero, bytes 1..8 from the
big-endian chain id (the id's top byte is discarded). -/
def encodeEvmChainId (id : Nat) : List Nat :=
  [0] ++ (toBeBytes8 id).drop 1

def ALL_CHAINS_NETWORK_ID : Nat := 255

/-- `encode_chain_id`: for `All`, `format!("{:02x}", 255)` emits two hex
characters, i.e. a single byte. -/
def encodeChainId : ChainId → List Nat
  | .evm id => encodeEvmChainId id
  | .all => [ALL_CHAINS_NETWORK_ID]

/-- The byte payload `Display` feeds to bech32: `"01"`, the master key hex,
the xored network id hex, the viewing key hex.  The bech32m and hex
transport layers are library inverses and are modelled as the identity on
this payload. -/
def formatAddress (a : RailgunAddress) : List Nat :=
  [1] ++ a.masterKey ++ xorNetworkId (encodeChainId a.chainId) ++
    a.viewingPubkey

/-- `&address_hex[2k1..2k2]` on the payload bytes; an out-of-range slice
panics in Rust. -/
def slice (l : List Nat) (a b : Nat) : Except AddrErr (List Nat) :=
  if a ≤ b ∧ b ≤ l.length then .ok ((l.drop a).take (b - a))
  else .error (.panicSliceOutOfRange a b l.length)

def fromBeBytes8 (bytes : List Nat) : Nat :=
  bytes.foldl (fun acc b => acc * 256 + b % 256) 0

/-- `decode_network_id` (its input here is always 8 bytes): byte 0 selects
EVM (id from bytes 1..8) or All. -/
def decodeNetworkId (encoded : List Nat) : Except AddrErr ChainId :=
  if encoded.getD 0 0 = 0 then
    .ok (.evm (fromBeBytes8 ([0] ++ (encoded.drop 1).take 7)))
  else if encoded.getD 0 0 = ALL_CHAINS_NETWORK_ID then .ok .all
  else .error (.invalidChainId (encoded.getD 0 0))

/-- `MasterPublicKey::from_hex` / `ViewingPublicKey::from_hex`: 32 bytes. -/
def keyFromBytes (bytes : List Nat) : Except AddrErr (List Nat) :=
  if bytes.length = 32 then .ok bytes else .error .invalidKeyLength

/-- `FromStr for RailgunAddress` on the decoded payload. -/
def parseAddress (payload : List Nat) : Except AddrErr RailgunAddress := do
  let versionB ← slice payload 0 1
  let masterB ← slice payload 1 33
  let master ← keyFromBytes masterB
  let nid ← slice payload 33 41
  let chainId ← decodeNetworkId (xorNetworkId nid)
  let viewingB ← slice payload 41 73
  let viewing ← keyFromBytes viewingB
  if versionB.getD 0 0 ≠ 1 then
    .error (.invalidVersion (versionB.getD 0 0))
  else .ok ⟨master, viewing, chainId⟩

end Address

/-- C6 (code bug): for any All-chains address, `Display` emits a 66-byte
payload — `encode_chain_id` renders the `All` network id as the two hex
characters `ff`, one byte instead of the eight the format requires — and
`FromStr` on that very payload panics, slicing `address_hex[82..146]` in a
132-character string.  `parse(format(a)) = a` therefore fails for every
address with `chain_id = All`. -/
theorem railgun_address_all_roundtrip_panics (m v : List Nat)
    (hm : m.length = 32) (hv : v.length = 32) :
    (Address.formatAddress ⟨m, v, Address.ChainId.all⟩).length = 66 ∧
    Address.parseAddress (Address.formatAddress ⟨m, v, Address.ChainId.all⟩) =
      Except.error (Address.AddrErr.panicSliceOutOfRange 41 73 66) := by
  have hxlen : (Address.xorNetworkId
      (Address.encodeChainId Address.ChainId.all)).length = 1 := by
    simp [Address.xorNetworkId, Address.encodeChainId]
  have hxval : Address.xorNetworkId (Address.encodeChainId Address.ChainId.all)
      = [141] := by decide
  set payload := Address.formatAddress ⟨m, v, Address.ChainId.all⟩ with hpdef
  have hsplit : payload = [1] ++ m ++ [141] ++ v := by
    rw [hpdef, Address.formatAddress]
    simp [hxval]
  have hlen : payload.length = 66 := by
    rw [hsplit]
    simp [hm, hv]
  refine ⟨hlen, ?_⟩
  have hb : ∀ {β : Type} (x : List Nat)
      (f : List Nat → Except Address.AddrErr β),
      (Bind.bind (Except.ok x) f : Except Address.AddrErr β) = f x :=
    fun x f => rfl
  have hb2 : ∀ {β : Type} (x : Address.ChainId)
      (f : Address.ChainId → Except Address.AddrErr β),
      (Bind.bind (Except.ok x) f : Except Address.AddrErr β) = f x :=
    fun x f => rfl
  have hs1 : Address.slice payload 0 1 = Except.ok [1] := by
    rw [Address.slice, if_pos ⟨by omega, by rw [hlen]; omega⟩, hsplit]
    rfl
  have hs2 : Address.slice payload 1 33 = Except.ok m := by
    rw [Address.slice, if_pos ⟨by omega, by rw [hlen]; omega⟩, hsplit]
    have : (([1] ++ m ++ [141] ++ v).drop 1).take 32 = m := by
      simp [List.drop_append_of_le_length, List.take_append_of_le_length, hm]
    simpa using this
  have hs3 : Address.keyFromBytes m = Except.ok m := by
    rw [Address.keyFromBytes, if_pos hm]
  have hs4 : Address.slice payload 33 41 = Except.ok ([141] ++ v.take 7) := by
    rw [Address.slice, if_pos ⟨by omega, by rw [hlen]; omega⟩, hsplit]
    have h1 : ([1] ++ m ++ [141] ++ v).drop 33 = [141] ++ v := by
      rw [show [1] ++ m ++ [141] ++ v = ([1] ++ m) ++ ([141] ++ v) by simp,
        List.drop_append_of_le_length (by simp [hm])]
      have : ([1] ++ m).length = 33 := by simp [hm]
      rw [show (33 : Nat) = ([1] ++ m).length by rw [this],
        List.drop_length]
      simp
    rw [h1]
    rfl
  have hs5 : Address.decodeNetworkId
      (Address.xorNetworkId ([141] ++ v.take 7)) = Except.ok .all := by
    have h0 : (Address.xorNetworkId ([141] ++ v.take 7)).getD 0 0 = 255 := by
      rw [Address.xorNetworkId]
      have hlen2 : ([141] ++ v.take 7).length = 8 := by simp [hv]
      rw [hlen2]
      simp only [show List.range 8 = [0, 1, 2, 3, 4, 5, 6, 7] from by decide,
        List.map_cons, List.getD_cons_zero, List.singleton_append]
      rfl
    rw [Address.decodeNetworkId, if_neg (by rw [h0]; omega),
      if_pos (by rw [h0]; rfl)]
  have hs6 : Address.slice payload 41 73 =
      Except.error (Address.AddrErr.panicSliceOutOfRange 41 73 66) := by
    rw [Address.slice, if_neg (by rw [hlen]; omega), hlen]
  rw [Address.parseAddress, hs1, hb, hs2, hb, hs3, hb, hs4, hb, hs5, hb2, hs6]
  rfl

/-- C6 witness: the failure evaluated at a concrete All-chains address. -/
theorem railgun_address_all_roundtrip_panics_witness :
    (Address.formatAddress
        ⟨List.replicate 32 1, List.replicate 32 2,
          Address.ChainId.all⟩).length = 66 ∧
    Address.parseAddress
        (Address.formatAddress
          ⟨List.replicate 32 1, List.replicate 32 2,
            Address.ChainId.all⟩) =
      Except.error (Address.AddrErr.panicSliceOutOfRange 41 73 66) :=
  railgun_address_all_roundtrip_panics (List.replicate 32 1)
    (List.replicate 32 2) (by decide) (by decide)

/-! ## Claims C4 and C5: the concrete cryptography -/

namespace Sha2

/-- The SHA-512 round constants (fractional cube roots of the first 80
primes). -/
def K512 : List Nat := [
  4794697086780616226, 8158064640168781261, 13096744586834688815, 16840607885511220156,
  4131703408338449720, 6480981068601479193, 10538285296894168987, 12329834152419229976,
  15566598209576043074, 1334009975649890238, 2608012711638119052, 6128411473006802146,
  8268148722764581231, 9286055187155687089, 11230858885718282805, 13951009754708518548,
  16472876342353939154, 17275323862435702243, 1135362057144423861, 2597628984639134821,
  3308224258029322869, 5365058923640841347, 6679025012923562964, 8573033837759648693,
  10970295158949994411, 12119686244451234320, 12683024718118986047, 13788192230050041572,
  14330467153632333762, 15395433587784984357, 489312712824947311, 1452737877330783856,
  2861767655752347644, 3322285676063803686, 5560940570517711597, 5996557281743188959,
  7280758554555802590, 8532644243296465576, 9350256976987008742, 10552545826968843579,
  11727347734174303076, 12113106623233404929, 14000437183269869457, 14369950271660146224,
  15101387698204529176, 15463397548674623760, 17586052441742319658, 1182934255886127544,
  1847814050463011016, 2177327727835720531, 2830643537854262169, 3796741975233480872,
  4115178125766777443, 5681478168544905931, 6601373596472566643, 7507060721942968483,
  8399075790359081724, 8693463985226723168, 9568029438360202098, 10144078919501101548,
  10430055236837252648, 11840083180663258601, 13761210420658862357, 14299343276471374635,
  14566680578165727644, 15097957966210449927, 16922976911328602910, 17689382322260857208,
  500013540394364858, 748580250866718886, 1242879168328830382, 1977374033974150939,
  2944078676154940804, 3659926193048069267, 4368137639120453308, 4836135668995329356,
  5532061633213252278, 6448918945643986474, 6902733635092675308, 7801388544844847127]

/-- The SHA-512 initial state (fractional square roots of the first 8
primes). -/
def H512 : List Nat := [
  7640891576956012808, 13503953896175478587, 4354685564936845355, 11912009170470909681,
  5840696475078001361, 11170449401992604703, 2270897969802886507, 6620516959819538809]

/-- The SHA-256 round constants. -/
def K256 : List Nat := [
  1116352408, 1899447441, 3049323471, 3921009573, 961987163, 1508970993,
  2453635748, 2870763221, 3624381080, 310598401, 607225278, 1426881987,
  1925078388, 2162078206, 2614888103, 3248222580, 3835390401, 4022224774,
  264347078, 604807628, 770255983, 1249150122, 1555081692, 1996064986,
  2554220882, 2821834349, 2952996808, 3210313671, 3336571891, 3584528711,
  113926993, 338241895, 666307205, 773529912, 1294757372, 1396182291,
  1695183700, 1986661051, 2177026350, 2456956037, 2730485921, 2820302411,
  3259730800, 3345764771, 3516065817, 3600352804, 4094571909, 275423344,
  430227734, 506948616, 659060556, 883997877, 958139571, 1322822218,
  1537002063, 1747873779, 1955562222, 2024104815, 2227730452, 2361852424,
  2428436474, 2756734187, 3204031479, 3329325298]

/-- The SHA-256 initial state. -/
def H256 : List Nat := [
  1779033703, 3144134277, 1013904242, 2773480762, 1359893119, 2600822924,
  528734635, 1541459225]

/-- Rotate a `w`-bit word right by `n`. -/
def rotr (w x n : Nat) : Nat := (x / 2 ^ n + x * 2 ^ (w - n)) % 2 ^ w

/-- Big-endian word of the byte list. -/
def beWord (bytes : List Nat) : Nat :=
  bytes.foldl (fun acc b => acc * 256 + b % 256) 0

/-- Split a value into `n` big-endian bytes. -/
def beBytes (n v : Nat) : List Nat :=
  (List.range n).map fun i => v / 2 ^ (8 * (n - 1 - i)) % 256

/-- Merkle–Damgård padding: `0x80`, zeros, and the bit length in the last
`2 * wordBytes` bytes; block size `16 * wordBytes`. -/
def pad (wordBytes : Nat) (msg : List Nat) : List Nat :=
  let blockLen := 16 * wordBytes
  let withOne := msg ++ [128]
  let zeros := (blockLen - (withOne.length + 2 * wordBytes) % blockLen) % blockLen
  withOne ++ List.replicate zeros 0 ++ beBytes (2 * wordBytes) (8 * msg.length)

/-- The byte list as `n` big-endian `wordBytes`-byte words. -/
def toWords (wordBytes : Nat) : Nat → List Nat → List Nat
  | 0, _ => []
  | n + 1, bytes =>
      beWord (bytes.take wordBytes) :: toWords wordBytes n (bytes.drop wordBytes)

/-- The message schedule: extend the 16 block words to `total`. -/
def schedule (w s0a s0b s0c s1a s1b s1c total : Nat) (ws : List Nat) :
    Nat → List Nat
  | 0 => ws
  | fuel + 1 =>
      let t := ws.length
      if t < total then
        let s0 := Nat.xor (Nat.xor (rotr w (ws.getD (t - 15) 0) s0a)
          (rotr w (ws.getD (t - 15) 0) s0b)) (ws.getD (t - 15) 0 / 2 ^ s0c)
        let s1 := Nat.xor (Nat.xor (rotr w (ws.getD (t - 2) 0) s1a)
          (rotr w (ws.getD (t - 2) 0) s1b)) (ws.getD (t - 2) 0 / 2 ^ s1c)
        schedule w s0a s0b s0c s1a s1b s1c total
          (ws ++ [(ws.getD (t - 16) 0 + s0 + ws.getD (t - 7) 0 + s1) % 2 ^ w])
          fuel
      else ws

/-- One compression round. -/
def round (w e0a e0b e0c e1a e1b e1c : Nat) (k wt : Nat)
    (st : List Nat) : List Nat :=
  let a := st.getD 0 0
  let b := st.getD 1 0
  let c := st.getD 2 0
  let d := st.getD 3 0
  let e := st.getD 4 0
  let f := st.getD 5 0
  let g := st.getD 6 0
  let h := st.getD 7 0
  let S1 := Nat.xor (Nat.xor (rotr w e e1a) (rotr w e e1b)) (rotr w e e1c)
  let ch := Nat.xor (Nat.land e f) (Nat.land ((2 ^ w - 1) - e) g)
  let temp1 := (h + S1 + ch + k + wt) % 2 ^ w
  let S0 := Nat.xor (Nat.xor (rotr w a e0a) (rotr w a e0b)) (rotr w a e0c)
  let maj := Nat.xor (Nat.xor (Nat.land a b) (Nat.land a c)) (Nat.land b c)
  let temp2 := (S0 + maj) % 2 ^ w
  [(temp1 + temp2) % 2 ^ w, a, b, c, (d + temp1) % 2 ^ w, e, f, g]

/-- Compress one block into the chaining state. -/
def compress (w e0a e0b e0c e1a e1b e1c : Nat) (K ws H : List Nat) :
    List Nat :=
  let final := (List.range K.length).foldl
    (fun st t => round w e0a e0b e0c e1a e1b e1c (K.getD t 0) (ws.getD t 0) st)
    H
  (List.range 8).map fun i => (H.getD i 0 + final.getD i 0) % 2 ^ w

/-- Process the padded blocks. -/
def blocksLoop (w e0a e0b e0c e1a e1b e1c s0a s0b s0c s1a s1b s1c : Nat)
    (K : List Nat) : Nat → List Nat → List Nat → List Nat
  | 0, _, H => H
  | n + 1, bytes, H =>
      let block := toWords (w / 8) 16 (bytes.take (2 * w))
      let ws := schedule w s0a s0b s0c s1a s1b s1c K.length block K.length
      blocksLoop w e0a e0b e0c e1a e1b e1c s0a s0b s0c s1a s1b s1c K n
        (bytes.drop (2 * w)) (compress w e0a e0b e0c e1a e1b e1c K ws H)

/-- `Sha512::digest`. -/
def sha512 (msg : List Nat) : List Nat :=
  let padded := pad 8 msg
  let H := blocksLoop 64 28 34 39 14 18 41 1 8 7 19 61 6 K512
    (padded.length / 128) padded H512
  H.flatMap (beBytes 8)

/-- `Sha256::digest`. -/
def sha256 (msg : List Nat) : List Nat :=
  let padded := pad 4 msg
  let H := blocksLoop 32 2 13 22 6 11 25 7 18 3 17 19 10 K256
    (padded.length / 64) padded H256
  H.flatMap (beBytes 4)

end Sha2



namespace Ed25519

/-- The Curve25519 field prime. -/
def P : Nat := 2 ^ 255 - 19

/-- The Ed25519 group order `ℓ`. -/
def L : Nat := 2 ^ 252 + 27742317777372353535851937790883648493

def powMod : Nat → Nat → Nat → Nat → Nat
  | 0, _, _, _ => 1
  | fuel + 1, b, e, m =>
      if e = 0 then 1 % m
      else
        let h := powMod fuel (b * b % m) (e / 2) m
        if e % 2 = 1 then h * b % m else h

/-- Inverse by Fermat (`0⁻¹ = 0`, as in the dalek field). -/
def finv (a : Nat) : Nat := powMod 256 a (P - 2) P

/-- The Edwards `d` constant, `-121665/121666`. -/
def D : Nat := (P - 121665) * finv 121666 % P

/-- `√-1`. -/
def sqrtM1 : Nat := powMod 256 2 ((P - 1) / 4) P

/-- A point in extended twisted Edwards coordinates. -/
structure Pt where
  X : Nat
  Y : Nat
  Z : Nat
  T : Nat
deriving DecidableEq

def idPt : Pt := ⟨0, 1, 1, 0⟩

def fsub (a b : Nat) : Nat := (a + P - b % P) % P

/-- The unified a = -1 extended addition (add-2008-hwcd-3). -/
def ptAdd (p1 p2 : Pt) : Pt :=
  let A := fsub p1.Y p1.X * fsub p2.Y p2.X % P
  let B := (p1.Y + p1.X) % P * ((p2.Y + p2.X) % P) % P
  let C := p1.T * p2.T % P * (2 * D % P) % P
  let Dv := 2 * p1.Z % P * p2.Z % P
  let E := fsub B A
  let F := fsub Dv C
  let G := (Dv + C) % P
  let H := (B + A) % P
  ⟨E * F % P, G * H % P, F * G % P, E * H % P⟩

/-- Scalar multiplication by binary double-and-add (the library's scalar
multiple of an `EdwardsPoint`). -/
def smul : Nat → Nat → Pt → Pt
  | 0, _, _ => idPt
  | fuel + 1, k, q =>
      if k = 0 then idPt
      else
        let r := smul fuel (k / 2) (ptAdd q q)
        if k % 2 = 1 then ptAdd r q else r


/-- `smul` with an extra test on the accumulated point at each step: the
test is decided during kernel reduction, which evaluates the coordinates to
literals and keeps the reduction shallow.  Both branches are the same
computation, so this is definitionally `smul` (see `smulF_eq`). -/
def smulF : Nat → Nat → Pt → Pt
  | 0, _, _ => idPt
  | fuel + 1, k, q =>
      if q.X + q.Y + q.Z + q.T = 0 then
        (if k = 0 then idPt
         else
           let r := smulF fuel (k / 2) (ptAdd q q)
           if k % 2 = 1 then ptAdd r q else r)
      else
        (if k = 0 then idPt
         else
           let r := smulF fuel (k / 2) (ptAdd q q)
           if k % 2 = 1 then ptAdd r q else r)

def leWord (bytes : List Nat) : Nat :=
  bytes.foldr (fun b acc => acc * 256 + b % 256) 0

def leBytes (n v : Nat) : List Nat :=
  (List.range n).map fun i => v / 2 ^ (8 * i) % 256

/-- Affine coordinates of an extended point. -/
def toAffine (q : Pt) : Nat × Nat :=
  (q.X * finv q.Z % P, q.Y * finv q.Z % P)

/-- Affine to extended. -/
def fromAffine (a : Nat × Nat) : Pt := ⟨a.1, a.2, 1, a.1 * a.2 % P⟩

/-- `CompressedEdwardsY::decompress`: split sign bit and `y`, recover `x`
by the `2^((p-5)/8)` square-root method, fail if `x² ≠ u/v`, then match the
sign bit. -/
def decompress (bytes : List Nat) : Option (Nat × Nat) :=
  let yv := leWord bytes
  let sign := yv / 2 ^ 255
  let y := yv % 2 ^ 255 % P
  let u := fsub (y * y % P) 1
  let v := (D * (y * y % P) + 1) % P
  let v3 := v * v % P * v % P
  let v7 := v3 * v3 % P * v % P
  let r := u * v3 % P * powMod 256 (u * v7 % P) ((P - 5) / 8) P % P
  let chk := v * (r * r % P) % P
  if chk = u then
    some (if r % 2 = sign % 2 then r else fsub 0 r, y)
  else if chk = fsub 0 u then
    let r2 := r * sqrtM1 % P
    some (if r2 % 2 = sign % 2 then r2 else fsub 0 r2, y)
  else none

/-- `EdwardsPoint::compress`: `y` little-endian with the parity of `x` in
the top bit. -/
def compress (a : Nat × Nat) : List Nat :=
  leBytes 32 (a.2 + a.1 % 2 * 2 ^ 255)

/-- `to_montgomery().to_bytes()`: `u = (1 + y)/(1 - y)`. -/
def montgomeryU (a : Nat × Nat) : Nat :=
  (1 + a.2) % P * finv (fsub 1 a.2) % P

/-- `ViewingKey::to_curve25519_scalar`: clamp the first half of
`SHA-512(key)` and reduce mod `ℓ`. -/
def toCurve25519Scalar (key : List Nat) : Nat :=
  let hash := Sha2.sha512 key
  let head := hash.take 32
  let clamped := [Nat.land (head.getD 0 0) 248] ++
    ((head.drop 1).take 30) ++ [Nat.lor (Nat.land (head.getD 31 0) 63) 64]
  leWord clamped % L

inductive KeyError where
  | decompressionFailed
deriving DecidableEq

/-- `ViewingKey::derive_shared_key` = `SharedKey::new`: SHA-256 of the
compressed product point. -/
def deriveSharedKey (key their : List Nat) : Except KeyError (List Nat) :=
  match decompress their with
  | none => .error .decompressionFailed
  | some q =>
      .ok (Sha2.sha256 (compress (toAffine
        (smul 256 (toCurve25519Scalar key) (fromAffine q)))))

/-- `ViewingKey::derive_shared_secret`: the raw little-endian
`u`-coordinate of the Montgomery product. -/
def deriveSharedSecret (key their : List Nat) : Except KeyError (List Nat) :=
  match decompress their with
  | none => .error .decompressionFailed
  | some q =>
      .ok (leBytes 32 (montgomeryU (toAffine
        (smul 256 (toCurve25519Scalar key) (fromAffine q)))))

/-- Modelled from the spec: `derive_shared_key` as the specification
describes it — convert to Curve25519, multiply by the clamped scalar, and
return the raw 32-byte `u`-coordinate with no further hashing. -/
def specDeriveSharedKey (key their : List Nat) : Except KeyError (List Nat) :=
  match decompress their with
  | none => .error .decompressionFailed
  | some q =>
      .ok (leBytes 32 (montgomeryU (toAffine
        (smul 256 (toCurve25519Scalar key) (fromAffine q)))))

theorem smulF_eq (fuel : Nat) : ∀ k q, smulF fuel k q = smul fuel k q := by
  induction fuel with
  | zero =>
    intro k q
    rfl
  | succ fuel ih =>
    intro k q
    rw [smulF, smul]
    split <;> simp only [ih]

end Ed25519


/-! ## Claim C5 -/

/-- The Ed25519 viewing public key of the seed `[3; 32]` (the repository's
`test_shared_key` counterparty). -/
def pk3Bytes : List Nat :=
  [237, 73, 40, 198, 40, 209, 194, 198, 234, 233, 3, 56, 144, 89, 149, 97,
   41, 89, 39, 58, 92, 99, 249, 54, 54, 193, 70, 20, 172, 135, 55, 209]

/-- What `derive_shared_key([2; 32], pk3)` returns (the repository's own
`test_shared_key` expected value `b8d9b27c…`). -/
def dskBytes : List Nat :=
  [184, 217, 178, 124, 203, 97, 97, 186, 150, 154, 100, 101, 83, 173, 27,
   114, 33, 180, 17, 58, 200, 59, 221, 96, 57, 133, 206, 68, 146, 52, 86,
   241]

/-- The raw `u`-coordinate the spec describes for the same inputs
(`derive_shared_secret`'s value, `4d5f27f6…`). -/
def dssBytes : List Nat :=
  [77, 95, 39, 246, 79, 28, 148, 252, 202, 14, 100, 85, 0, 236, 106, 56,
   43, 47, 249, 184, 61, 180, 211, 65, 164, 160, 211, 171, 245, 70, 18,
   119]

set_option maxRecDepth 1000000 in
/-- C5 (amended): `derive_shared_key` multiplies the decompressed Edwards
point by the caller's clamped Curve25519 scalar and returns the SHA-256
digest of the compressed Edwards product — not the raw `u`-coordinate.
The raw-`u` description in the spec is `derive_shared_secret`, which the
spec-modelled `specDeriveSharedKey` coincides with on every input. -/
theorem derive_shared_key_hashes (key their : List Nat) (q : Nat × Nat)
    (hdec : Ed25519.decompress their = some q) :
    Ed25519.deriveSharedKey key their =
      Except.ok (Sha2.sha256 (Ed25519.compress (Ed25519.toAffine
        (Ed25519.smul 256 (Ed25519.toCurve25519Scalar key)
          (Ed25519.fromAffine q))))) ∧
    Ed25519.deriveSharedSecret key their =
      Except.ok (Ed25519.leBytes 32 (Ed25519.montgomeryU (Ed25519.toAffine
        (Ed25519.smul 256 (Ed25519.toCurve25519Scalar key)
          (Ed25519.fromAffine q))))) ∧
    Ed25519.specDeriveSharedKey key their =
      Ed25519.deriveSharedSecret key their := by
  refine ⟨?_, ?_, ?_⟩
  · rw [Ed25519.deriveSharedKey, hdec]
  · rw [Ed25519.deriveSharedSecret, hdec]
  · rw [Ed25519.specDeriveSharedKey, Ed25519.deriveSharedSecret]

set_option maxRecDepth 1000000 in
/-- C5 witness: the amended statement at the repository's `test_shared_key`
inputs. -/
theorem derive_shared_key_hashes_witness :
    Ed25519.deriveSharedKey (List.replicate 32 2) pk3Bytes =
      Except.ok (Sha2.sha256 (Ed25519.compress (Ed25519.toAffine
        (Ed25519.smul 256 (Ed25519.toCurve25519Scalar (List.replicate 32 2))
          (Ed25519.fromAffine
            (51833669625517615581738146137317915240409025571391342704495966068725126978397,
             36735453698810384714865950032664534067238089420559924607986925862666132539885)))))) ∧
    Ed25519.deriveSharedSecret (List.replicate 32 2) pk3Bytes =
      Except.ok (Ed25519.leBytes 32 (Ed25519.montgomeryU (Ed25519.toAffine
        (Ed25519.smul 256 (Ed25519.toCurve25519Scalar (List.replicate 32 2))
          (Ed25519.fromAffine
            (51833669625517615581738146137317915240409025571391342704495966068725126978397,
             36735453698810384714865950032664534067238089420559924607986925862666132539885)))))) ∧
    Ed25519.specDeriveSharedKey (List.replicate 32 2) pk3Bytes =
      Ed25519.deriveSharedSecret (List.replicate 32 2) pk3Bytes :=
  derive_shared_key_hashes (List.replicate 32 2) pk3Bytes
    (51833669625517615581738146137317915240409025571391342704495966068725126978397,
     36735453698810384714865950032664534067238089420559924607986925862666132539885)
    (by rfl)

set_option maxRecDepth 1000000 in
/-- C5 counterexample: on the repository's own shared-key test inputs the
code's `derive_shared_key` (the repo vector `b8d9b27c…`) differs from the
raw `u`-coordinate the spec describes (`4d5f27f6…`). -/
theorem derive_shared_key_not_raw_u :
    Ed25519.deriveSharedKey (List.replicate 32 2) pk3Bytes =
        Except.ok dskBytes ∧
    Ed25519.specDeriveSharedKey (List.replicate 32 2) pk3Bytes =
        Except.ok dssBytes ∧
    dskBytes ≠ dssBytes := by
  have hdec : Ed25519.decompress pk3Bytes = some
      (51833669625517615581738146137317915240409025571391342704495966068725126978397,
       36735453698810384714865950032664534067238089420559924607986925862666132539885) := by
    rfl
  have hsc : Ed25519.toCurve25519Scalar (List.replicate 32 2) =
      6618584354091862781014219179219007555917048250792264098186681751269297286388 := by
    rfl
  have hq : Ed25519.toAffine (Ed25519.smulF 256
      6618584354091862781014219179219007555917048250792264098186681751269297286388
      (Ed25519.fromAffine
        (51833669625517615581738146137317915240409025571391342704495966068725126978397,
         36735453698810384714865950032664534067238089420559924607986925862666132539885))) =
      (30065007011836037760262532207026681522993908500889066538238827286761942382515,
       885462226363630244291498756766650007788997121757309153606274910920311982278) := by
    rfl
  have hq2 : Ed25519.toAffine (Ed25519.smul 256
      (Ed25519.toCurve25519Scalar (List.replicate 32 2))
      (Ed25519.fromAffine
        (51833669625517615581738146137317915240409025571391342704495966068725126978397,
         36735453698810384714865950032664534067238089420559924607986925862666132539885))) =
      (30065007011836037760262532207026681522993908500889066538238827286761942382515,
       885462226363630244291498756766650007788997121757309153606274910920311982278) := by
    rw [hsc, ← Ed25519.smulF_eq]
    exact hq
  obtain ⟨h1, h2, -⟩ := derive_shared_key_hashes (List.replicate 32 2)
    pk3Bytes
    (51833669625517615581738146137317915240409025571391342704495966068725126978397,
     36735453698810384714865950032664534067238089420559924607986925862666132539885)
    hdec
  refine ⟨?_, ?_, by decide⟩
  · rw [h1, hq2]
    rfl
  · rw [Ed25519.specDeriveSharedKey, hdec]
    have hmont : (Except.ok (Ed25519.leBytes 32 (Ed25519.montgomeryU
        (Ed25519.toAffine (Ed25519.smul 256
          (Ed25519.toCurve25519Scalar (List.replicate 32 2))
          (Ed25519.fromAffine
            (51833669625517615581738146137317915240409025571391342704495966068725126978397,
             36735453698810384714865950032664534067238089420559924607986925862666132539885)))))) :
        Except Ed25519.KeyError (List Nat)) = Except.ok dssBytes := by
      rw [hq2]
      rfl
    exact hmont

/-! ## Claim C4: BabyJubJub key generation and signing

The BLAKE-512 hash and the BabyJubJub curve arithmetic of
`crates/crypto/src/babyjubjub.rs`.  The spec's public-key and `R` literals
are settled exactly below (`bjj_public_key_exact`, `bjj_sign_r_exact`);
the signature scalar `s` additionally needs the Poseidon hash with arity
5, whose round constants live outside `src/`. -/

namespace Blake512

/-- The sixteen π-derived word constants of BLAKE-512. -/
def U : List Nat := [
  2611923443488327891, 1376283091369227076, 11820040416388919760, 589684135938649225,
  4983270260364809079, 13714699805381954668, 13883517620612518109, 4577018097722394903,
  10526836309316205339, 15073842237943035308, 3458046377305235383, 13322122606961655446,
  13437774018240085913, 2639559389850201335, 577009281997405206, 7163292796296056425]

/-- The ten message permutations. -/
def SIGMA : List (List Nat) := [
  [0, 1, 2, 3, 4, 5, 6, 7, 8, 9, 10, 11, 12, 13, 14, 15],
  [14, 10, 4, 8, 9, 15, 13, 6, 1, 12, 0, 2, 11, 7, 5, 3],
  [11, 8, 12, 0, 5, 2, 15, 13, 10, 14, 3, 6, 7, 1, 9, 4],
  [7, 9, 3, 1, 13, 12, 11, 14, 2, 6, 5, 10, 4, 0, 15, 8],
  [9, 0, 5, 7, 2, 4, 10, 15, 14, 1, 11, 12, 6, 8, 3, 13],
  [2, 12, 6, 10, 0, 11, 8, 3, 4, 13, 7, 5, 15, 14, 1, 9],
  [12, 5, 1, 15, 14, 13, 4, 10, 0, 7, 6, 3, 9, 2, 8, 11],
  [13, 11, 7, 14, 12, 1, 3, 9, 5, 0, 15, 4, 8, 6, 2, 10],
  [6, 15, 14, 9, 11, 3, 0, 8, 12, 2, 13, 7, 1, 4, 10, 5],
  [10, 2, 8, 4, 7, 6, 1, 5, 15, 11, 9, 14, 3, 12, 13, 0]]

/-- The `G` quarter-round on state indices `a b c d`, column/diagonal `i`
of round `r`. -/
def gfun (m : List Nat) (r i a b c d : Nat) (v : List Nat) : List Nat :=
  let s := SIGMA.getD (r % 10) []
  let j := s.getD (2 * i) 0
  let k := s.getD (2 * i + 1) 0
  let va := (v.getD a 0 + v.getD b 0 + Nat.xor (m.getD j 0) (U.getD k 0)) % 2 ^ 64
  let vd := Sha2.rotr 64 (Nat.xor (v.getD d 0) va) 32
  let vc := (v.getD c 0 + vd) % 2 ^ 64
  let vb := Sha2.rotr 64 (Nat.xor (v.getD b 0) vc) 25
  let va2 := (va + vb + Nat.xor (m.getD k 0) (U.getD j 0)) % 2 ^ 64
  let vd2 := Sha2.rotr 64 (Nat.xor vd va2) 16
  let vc2 := (vc + vd2) % 2 ^ 64
  let vb2 := Sha2.rotr 64 (Nat.xor vb vc2) 11
  (((v.set a va2).set b vb2).set c vc2).set d vd2

/-- One of the sixteen rounds: four column steps then four diagonals. -/
def roundB (m : List Nat) (r : Nat) (v : List Nat) : List Nat :=
  gfun m r 7 3 4 9 14 (gfun m r 6 2 7 8 13 (gfun m r 5 1 6 11 12
    (gfun m r 4 0 5 10 15 (gfun m r 3 3 7 11 15 (gfun m r 2 2 6 10 14
      (gfun m r 1 1 5 9 13 (gfun m r 0 0 4 8 12 v)))))))

/-- The BLAKE-512 compression of one 128-byte block with counter `t`
(salt zero). -/
def compressB (h block : List Nat) (t : Nat) : List Nat :=
  let m := Sha2.toWords 8 16 block
  let v := h ++ [U.getD 0 0, U.getD 1 0, U.getD 2 0, U.getD 3 0,
    Nat.xor (U.getD 4 0) (t % 2 ^ 64), Nat.xor (U.getD 5 0) (t % 2 ^ 64),
    Nat.xor (U.getD 6 0) (t / 2 ^ 64 % 2 ^ 64),
    Nat.xor (U.getD 7 0) (t / 2 ^ 64 % 2 ^ 64)]
  let fin := (List.range 16).foldl (fun st r => roundB m r st) v
  (List.range 8).map fun i =>
    Nat.xor (Nat.xor (h.getD i 0) (fin.getD i 0)) (fin.getD (i + 8) 0)

/-- BLAKE-512 of a message of at most 110 bytes (a single padded block, the
only case the key pipeline uses): `0x80`, zeros, `0x01`, and the 128-bit
big-endian bit length; the block counter is the message bit count. -/
def blake512 (msg : List Nat) : List Nat :=
  let ell := 8 * msg.length
  let block := msg ++ [128] ++ List.replicate (110 - msg.length) 0 ++ [1] ++
    Sha2.beBytes 16 ell
  (compressB Sha2.H512 block ell).flatMap (Sha2.beBytes 8)

end Blake512


namespace BabyJubJub

/-- The BN254 scalar field modulus (the BabyJubJub base field). -/
def Q : Nat :=
  21888242871839275222246405745257275088548364400416034343698204186575808495617

/-- The BabyJubJub curve group order. -/
def ORDER : Nat :=
  21888242871839275222246405745257275088614511777268538073601725287587578984328

/-- `ORDER >> 3`, the prime subgroup order. -/
def suborder : Nat := ORDER / 8

def A : Nat := 168700
def Dc : Nat := 168696

/-- The `B8` base point. -/
def B8 : Nat × Nat :=
  (5299619240641551281634865583518297030282874472190772894086521144482721001553,
   16950150798460657717958625567821834550301663161624707787222815936182638968203)

/-- A projective BabyJubJub point. -/
structure PPt where
  x : Nat
  y : Nat
  z : Nat
deriving DecidableEq

def qsub (a b : Nat) : Nat := (a + Q - b % Q) % Q

/-- `PointProjective::add`, add-2008-bbjlp. -/
def padd (p1 p2 : PPt) : PPt :=
  let a := p1.z * p2.z % Q
  let b := a * a % Q
  let c := p1.x * p2.x % Q
  let dxy := p1.y * p2.y % Q
  let e := Dc * c % Q * dxy % Q
  let f := qsub b e
  let g := (b + e) % Q
  let aux := qsub (qsub ((p1.x + p1.y) % Q * ((p2.x + p2.y) % Q) % Q) c) dxy
  let x3 := a * f % Q * aux % Q
  let ac := A * c % Q
  let dac := qsub dxy ac
  let y3 := a * g % Q * dac % Q
  let z3 := f * g % Q
  ⟨x3, y3, z3⟩

/-- `PointProjective::affine`. -/
def paffine (p1 : PPt) : Nat × Nat :=
  if p1.z = 0 then (0, 0)
  else
    let zinv := Ed25519.powMod 256 p1.z (Q - 2) Q
    (p1.x * zinv % Q, p1.y * zinv % Q)

/-- The double-and-add loop of `Point::mul_scalar`: bits of `n` from the
least significant, accumulating into `r`. -/
def mulLoop : Nat → Nat → PPt → PPt → PPt
  | 0, _, r, _ => r
  | fuel + 1, n, r, e =>
      if n = 0 then r
      else mulLoop fuel (n / 2) (if n % 2 = 1 then padd r e else r) (padd e e)

/-- `mulLoop` with an extra test on the carried points at each step; the
test is decided during kernel reduction, which keeps the coordinates as
literals.  Both branches are the same computation (see `mulLoopF_eq`). -/
def mulLoopF : Nat → Nat → PPt → PPt → PPt
  | 0, _, r, _ => r
  | fuel + 1, n, r, e =>
      if r.x + r.y + r.z + e.x + e.y + e.z = 0 then
        (if n = 0 then r
         else mulLoopF fuel (n / 2) (if n % 2 = 1 then padd r e else r)
           (padd e e))
      else
        (if n = 0 then r
         else mulLoopF fuel (n / 2) (if n % 2 = 1 then padd r e else r)
           (padd e e))

/-- `Point::mul_scalar`. -/
def mulScalar (p1 : Nat × Nat) (n : Nat) : Nat × Nat :=
  paffine (mulLoop 256 n ⟨0, 1, 1⟩ ⟨p1.1, p1.2, 1⟩)

/-- `PrivateKey::scalar_key`: BLAKE-512 of the key, RFC 8032 pruning of the
first 32 bytes, little-endian, shifted right by three. -/
def scalarKey (key : List Nat) : Nat :=
  let hash := Blake512.blake512 key
  let h := hash.take 32
  let pruned := [Nat.land (h.getD 0 0) 248] ++ ((h.drop 1).take 30) ++
    [Nat.lor (Nat.land (h.getD 31 0) 127) 64]
  Ed25519.leWord pruned / 8

/-- `PrivateKey::public`. -/
def publicKey (key : List Nat) : Nat × Nat :=
  mulScalar B8 (scalarKey key)

/-- The deterministic nonce of `PrivateKey::sign`:
`r = blake512(h[32..64] ∥ msg_le_32) mod suborder`, and `R = r·B8`. -/
def signR (key : List Nat) (msg : Nat) : Nat × (Nat × Nat) :=
  let h := Blake512.blake512 key
  let rBytes := (h.drop 32).take 32 ++ Ed25519.leBytes 32 msg
  let r := Ed25519.leWord (Blake512.blake512 rBytes) % suborder
  (r, mulScalar B8 r)

theorem mulLoopF_eq (fuel : Nat) : ∀ n r e,
    mulLoopF fuel n r e = mulLoop fuel n r e := by
  induction fuel with
  | zero =>
    intro n r e
    rfl
  | succ fuel ih =>
    intro n r e
    rw [mulLoopF, mulLoop]
    split <;> simp only [ih]

end BabyJubJub


set_option maxRecDepth 1000000 in
/-- BabyJubJub key generation for the all-`0x01` seed: the scalar key and
the exact public key the specification states. -/
theorem bjj_public_key_exact :
    BabyJubJub.scalarKey (List.replicate 32 1) =
      5275728506723301245722526903363579743994465188334743299779284252607279259578 ∧
    BabyJubJub.publicKey (List.replicate 32 1) =
      (15944627324083773346390189001500210680939402028015651549526524193195473201952,
       17251889856797524237981285661279357764562574766148660962999867467495459148286) := by
  have h1 : BabyJubJub.scalarKey (List.replicate 32 1) =
      5275728506723301245722526903363579743994465188334743299779284252607279259578 := by
    rfl
  have h2 : BabyJubJub.paffine (BabyJubJub.mulLoopF 256
      5275728506723301245722526903363579743994465188334743299779284252607279259578
      ⟨0, 1, 1⟩ ⟨BabyJubJub.B8.1, BabyJubJub.B8.2, 1⟩) =
      (15944627324083773346390189001500210680939402028015651549526524193195473201952,
       17251889856797524237981285661279357764562574766148660962999867467495459148286) := by
    rfl
  refine ⟨h1, ?_⟩
  rw [BabyJubJub.publicKey, BabyJubJub.mulScalar, h1, ← BabyJubJub.mulLoopF_eq]
  exact h2

set_option maxRecDepth 1000000 in
/-- The deterministic EdDSA nonce for the all-`0x01` seed and message
`12345`: the exact `R` the specification states. -/
theorem bjj_sign_r_exact :
    BabyJubJub.signR (List.replicate 32 1) 12345 =
      (611060907747587163537933411424799207466776399287530307676419433166068408853,
       (16645010557452456701448959088580661016911463823507331009854769009925791698150,
        10450145626571632149073824042351857150010617503888090720817471417491973277265)) := by
  have h1 : Ed25519.leWord (Blake512.blake512
      (((Blake512.blake512 (List.replicate 32 1)).drop 32).take 32 ++
        Ed25519.leBytes 32 12345)) % BabyJubJub.suborder =
      611060907747587163537933411424799207466776399287530307676419433166068408853 := by
    rfl
  have h2 : BabyJubJub.paffine (BabyJubJub.mulLoopF 256
      611060907747587163537933411424799207466776399287530307676419433166068408853
      ⟨0, 1, 1⟩ ⟨BabyJubJub.B8.1, BabyJubJub.B8.2, 1⟩) =
      (16645010557452456701448959088580661016911463823507331009854769009925791698150,
       10450145626571632149073824042351857150010617503888090720817471417491973277265) := by
    rfl
  simp only [BabyJubJub.signR]
  rw [h1, BabyJubJub.mulScalar, ← BabyJubJub.mulLoopF_eq]
  exact congrArg _ h2
